import Mathlib

/-!
Verification of the macro-condition tracker and the function-expression
matcher of this repository, against a shallow embedding in Lean.

Part 1 translates `MacroConditionCallbacks` (MacroConditionCheck.cpp):
the per-macro records, the preprocessor-callback event step function and
the end-of-main-file diagnostic pass.

Part 2 translates `FunctionExpressionMatcher` (FunctionExpressionMatcher.h):
a recursive-descent recognizer over a token list with a cursor.  The C++
cursor is a raw pointer into an `ArrayRef<Token>`; dereferencing the end
iterator is undefined behaviour, which the embedding models by returning
`none`.  The C++ recursion is modelled with a fuel parameter; running out
of fuel is likewise `none`, and the development proves that the fuel
chosen in `matchTokens` suffices for every non-empty token list.

Source locations are modelled as natural numbers and identifier/literal
spellings as strings.
-/

namespace MacroCondition

/-- One tracked macro, mirroring `struct ConditionMacro`.
`name` stands for `Name.getIdentifierInfo()->getName()`; `defLoc` stands
for `MD->getLocation()`, which for an object-like `#define` is the same
location as `MD->getMacroInfo()->getDefinitionLoc()` used when the
diagnostic is emitted. -/
structure ConditionMacro where
  name : String
  defLoc : Nat
  definedOnly : Bool
  definedChecked : Bool
  definedCheckedLocs : List Nat
  valueUsed : Bool
  valueUsedLocs : List Nat
deriving DecidableEq, Repr

/-- The preprocessor events observed by `MacroConditionCallbacks`, one
constructor per overridden callback.  `macroDefined` carries the data the
callback reads: whether `SM.getFilename(Loc)` is non-empty, whether the
macro is function-like or builtin, and the replacement token count.
`ifDir` carries the raw identifiers lexed from the `#if` condition text
in order (non-identifier tokens are ignored by the C++ loop, so only the
identifiers matter).  `elifDir`, `elifdefRange`, `elifndefRange`,
`elseDir` and `endifDir` mirror the callbacks that only print to
`std::cout` and touch no tracker state. -/
inductive PPEvent where
  | macroDefined (name : String) (defLoc : Nat)
      (hasFilename isFunctionLike isBuiltin : Bool) (tokenCount : Nat)
  | definedOp (name : String) (loc : Nat)
  | ifdefDir (name : String) (loc : Nat)
  | ifndefDir (name : String) (loc : Nat)
  | elifdefDir (name : String) (loc : Nat)
  | elifndefDir (name : String) (loc : Nat)
  | ifDir (loc : Nat) (condIdents : List String)
  | elifDir (loc : Nat)
  | elifdefRange (loc : Nat)
  | elifndefRange (loc : Nat)
  | elseDir (loc : Nat)
  | endifDir (loc : Nat)
deriving DecidableEq, Repr

/-- `llvm::find_if` + flag update used by `Defined`, `Ifdef`, `Ifndef`,
`Elifdef` and `Elifndef`: set `DefinedChecked` and push the location on
the FIRST record whose name matches; no record is created otherwise. -/
def markDefinedChecked (name : String) (loc : Nat) :
    List ConditionMacro → List ConditionMacro
  | [] => []
  | m :: ms =>
    if m.name = name then
      { m with definedChecked := true,
               definedCheckedLocs := m.definedCheckedLocs ++ [loc] } :: ms
    else
      m :: markDefinedChecked name loc ms

/-- The value-use update inside `MacroConditionCallbacks::If`: set
`ValueUsed` and push the `#if` location on the first matching record. -/
def markValueUsed (name : String) (loc : Nat) :
    List ConditionMacro → List ConditionMacro
  | [] => []
  | m :: ms =>
    if m.name = name then
      { m with valueUsed := true,
               valueUsedLocs := m.valueUsedLocs ++ [loc] } :: ms
    else
      m :: markValueUsed name loc ms

/-- The raw-lexing loop of `MacroConditionCallbacks::If` over the
identifiers of the condition text, threading the `InsideDefined` flag.
(The post-loop check in the C++ is dead code: `LexFromRawLexer` returns
`true` exactly when `Tok` is the `eof` token, which is never a raw
identifier.) -/
def scanCondIdents (loc : Nat) :
    List String → Bool → List ConditionMacro → List ConditionMacro
  | [], _, ms => ms
  | n :: rest, insideDefined, ms =>
    if n = "defined" then scanCondIdents loc rest true ms
    else if insideDefined then scanCondIdents loc rest false ms
    else scanCondIdents loc rest false (markValueUsed n loc ms)

/-- One preprocessor event applied to the tracker state, following each
callback body.  `MacroDefined` ignores macros with an empty filename,
function-like macros and builtins, and otherwise always appends a fresh
record (`Macros.emplace_back`), with `DefinedOnly = Info->tokens().empty()`. -/
def stepEvent (ms : List ConditionMacro) : PPEvent → List ConditionMacro
  | .macroDefined name defLoc hasFilename isFunctionLike isBuiltin tokenCount =>
    if !hasFilename then ms
    else if isFunctionLike || isBuiltin then ms
    else ms ++ [⟨name, defLoc, decide (tokenCount = 0), false, [], false, []⟩]
  | .definedOp name loc => markDefinedChecked name loc ms
  | .ifdefDir name loc => markDefinedChecked name loc ms
  | .ifndefDir name loc => markDefinedChecked name loc ms
  | .elifdefDir name loc => markDefinedChecked name loc ms
  | .elifndefDir name loc => markDefinedChecked name loc ms
  | .ifDir loc condIdents => scanCondIdents loc condIdents false ms
  | .elifDir _ => ms
  | .elifdefRange _ => ms
  | .elifndefRange _ => ms
  | .elseDir _ => ms
  | .endifDir _ => ms

/-- The tracker state after a whole event stream, from the empty state a
fresh `MacroConditionCallbacks` starts with. -/
def processEvents (evs : List PPEvent) : List ConditionMacro :=
  evs.foldl stepEvent []

/-- The two diagnostic messages of `EndOfMainFile`. -/
inductive DiagKind where
  | definedWithValueAndChecked
  | checkedHereForDefinition
deriving DecidableEq, Repr

structure Diagnostic where
  loc : Nat
  kind : DiagKind
  macroName : String
deriving DecidableEq, Repr

/-- The per-record part of `EndOfMainFile`: if `!DefinedOnly &&
DefinedChecked`, one diagnostic at the definition location and one per
recorded check location; otherwise nothing. -/
def macroDiags (m : ConditionMacro) : List Diagnostic :=
  if !m.definedOnly && m.definedChecked then
    ⟨m.defLoc, .definedWithValueAndChecked, m.name⟩ ::
      m.definedCheckedLocs.map (fun l => ⟨l, .checkedHereForDefinition, m.name⟩)
  else []

/-- `MacroConditionCallbacks::EndOfMainFile`, iterating over all records
in order. -/
def endOfMainFile (ms : List ConditionMacro) : List Diagnostic :=
  ms.flatMap macroDiags

/-- Diagnostics produced for one translation unit's event stream. -/
def runTracker (evs : List PPEvent) : List Diagnostic :=
  endOfMainFile (processEvents evs)

/-- Whether an event is a `MacroDefined` for `name` that actually creates
a record (non-empty filename, not function-like, not builtin). -/
def isTrackableDefineOf (name : String) : PPEvent → Bool
  | .macroDefined n _ hasFilename isFunctionLike isBuiltin _ =>
    n == name && hasFilename && !isFunctionLike && !isBuiltin
  | _ => false

/-- The location of a definedness test (`defined`, `#ifdef`, `#ifndef`,
`#elifdef`, `#elifndef`) of `name`, if the event is one. -/
def definednessTestLocOf (name : String) : PPEvent → Option Nat
  | .definedOp n l => if n == name then some l else none
  | .ifdefDir n l => if n == name then some l else none
  | .ifndefDir n l => if n == name then some l else none
  | .elifdefDir n l => if n == name then some l else none
  | .elifndefDir n l => if n == name then some l else none
  | _ => none

/-- All definedness-test locations of `name` in an event stream, in order. -/
def testLocsFor (name : String) (evs : List PPEvent) : List Nat :=
  evs.filterMap (definednessTestLocOf name)

/-- The fields of a record that `EndOfMainFile` actually reads. -/
structure DefView where
  name : String
  defLoc : Nat
  definedOnly : Bool
  definedChecked : Bool
  definedCheckedLocs : List Nat
deriving DecidableEq, Repr

def defProj (m : ConditionMacro) : DefView :=
  ⟨m.name, m.defLoc, m.definedOnly, m.definedChecked, m.definedCheckedLocs⟩

def viewDiags (v : DefView) : List Diagnostic :=
  if !v.definedOnly && v.definedChecked then
    ⟨v.defLoc, .definedWithValueAndChecked, v.name⟩ ::
      v.definedCheckedLocs.map (fun l => ⟨l, .checkedHereForDefinition, v.name⟩)
  else []

/-- The diag-relevant views of the records named `M`, in record order. -/
def mviews (M : String) (ms : List ConditionMacro) : List DefView :=
  (ms.filter (fun m => m.name == M)).map defProj

/-- The diag-relevant views of all records, in order. -/
def allViews (ms : List ConditionMacro) : List DefView :=
  ms.map defProj

/-- Whether an event is the value-reference scan of a `#if` condition. -/
def isValueRefEvent : PPEvent → Bool
  | .ifDir _ _ => true
  | _ => false

/-- `markDefinedChecked` on the diag-relevant views. -/
def markDefinedCheckedView (name : String) (loc : Nat) :
    List DefView → List DefView
  | [] => []
  | v :: vs =>
    if v.name = name then
      { v with definedChecked := true,
               definedCheckedLocs := v.definedCheckedLocs ++ [loc] } :: vs
    else
      v :: markDefinedCheckedView name loc vs

/-- `stepEvent` on the diag-relevant views; value-reference scans and the
print-only callbacks leave them unchanged. -/
def stepView (vs : List DefView) : PPEvent → List DefView
  | .macroDefined name defLoc hasFilename isFunctionLike isBuiltin tokenCount =>
    if !hasFilename then vs
    else if isFunctionLike || isBuiltin then vs
    else vs ++ [⟨name, defLoc, decide (tokenCount = 0), false, []⟩]
  | .definedOp name loc => markDefinedCheckedView name loc vs
  | .ifdefDir name loc => markDefinedCheckedView name loc vs
  | .ifndefDir name loc => markDefinedCheckedView name loc vs
  | .elifdefDir name loc => markDefinedCheckedView name loc vs
  | .elifndefDir name loc => markDefinedCheckedView name loc vs
  | _ => vs

/-- Update of the head view by one definedness test at `loc` (the effect
of a test on the run of views of a single macro name: only the first
matching record is ever updated). -/
def updFirstView (loc : Nat) : List DefView → List DefView
  | [] => []
  | v :: vs =>
    { v with definedChecked := true,
             definedCheckedLocs := v.definedCheckedLocs ++ [loc] } :: vs

/-- Cumulative effect of a list of definedness-test locations on the run
of views of one macro name. -/
def bulkTests (L : List Nat) : List DefView → List DefView
  | [] => []
  | v :: vs =>
    { v with definedChecked := v.definedChecked || !L.isEmpty,
             definedCheckedLocs := v.definedCheckedLocs ++ L } :: vs

/-- Invariant behind the zero-diagnostic outcomes: the head view (the
record every test attaches to) stems from an empty definition, and no
later view of the same name ever has its checked flag set. -/
def SilentRun : List DefView → Prop
  | [] => True
  | v :: vs => v.definedOnly = true ∧ ∀ w ∈ vs, w.definedChecked = false

/-- The location of a record-creating `MacroDefined` event, any name. -/
def trackableDefineLoc : PPEvent → Option Nat
  | .macroDefined _ l hasFilename isFunctionLike isBuiltin _ =>
    if hasFilename && !isFunctionLike && !isBuiltin then some l else none
  | _ => none

/-- The location of a definedness-test event, any name. -/
def anyTestLoc : PPEvent → Option Nat
  | .definedOp _ l => some l
  | .ifdefDir _ l => some l
  | .ifndefDir _ l => some l
  | .elifdefDir _ l => some l
  | .elifndefDir _ l => some l
  | _ => none

end MacroCondition

namespace MacroToFunction

/-- The token kinds `FunctionExpressionMatcher` distinguishes, plus the
payload it reads: identifier spelling (`getRawIdentifier` /
`getIdentifierInfo()->getName()`) and literal spelling
(`getLiteralData`).  `other` stands for every further `tok::TokenKind`,
none of which the matcher accepts anywhere. -/
inductive Tok where
  | lparen | rparen
  | minus | plus | tilde | exclaim
  | star | slash | percent
  | lessless | greatergreater | spaceship
  | less | greater | lessequal | greaterequal
  | equalequal | exclaimequal
  | amp | caret | pipe | ampamp | pipepipe
  | question | colon
  | ident (name : String)
  | literal (text : String)
  | other
deriving DecidableEq, Repr

/-- `Current->isOneOf(minus, plus, tilde, exclaim)`. -/
def Tok.isUnaryOp : Tok → Bool
  | .minus | .plus | .tilde | .exclaim => true
  | _ => false

/-- `Token::isLiteral`. -/
def Tok.isLiteral : Tok → Bool
  | .literal _ => true
  | _ => false

/-- `Token::isAnyIdentifier`. -/
def Tok.isAnyIdentifier : Tok → Bool
  | .ident _ => true
  | _ => false

/-- The static `getTokenName` helper: the identifier's spelling
(`getRawIdentifier` / `getIdentifierInfo()->getName()`); only ever
applied to identifier tokens. -/
def getTokenName : Tok → String
  | .ident n => n
  | _ => ""

def isMulOp : Tok → Bool
  | .star | .slash | .percent => true
  | _ => false

def isAddOp : Tok → Bool
  | .plus | .minus => true
  | _ => false

def isShiftOp : Tok → Bool
  | .lessless | .greatergreater => true
  | _ => false

def isRelOp : Tok → Bool
  | .less | .greater | .lessequal | .greaterequal => true
  | _ => false

def isEqOp : Tok → Bool
  | .equalequal | .exclaimequal => true
  | _ => false

def isAndOp : Tok → Bool
  | .amp => true
  | _ => false

def isXorOp : Tok → Bool
  | .caret => true
  | _ => false

def isOrOp : Tok → Bool
  | .pipe => true
  | _ => false

def isLAndOp : Tok → Bool
  | .ampamp => true
  | _ => false

def isLOrOp : Tok → Bool
  | .pipepipe => true
  | _ => false

/-- The static helper `isIntegralConstant` of the source file, over the
literal's spelling: a hexadecimal token (length > 2, leading `0x`/`0X`)
must contain no `.` and no `p`/`P` after the prefix; any other literal
must contain no `.`, `e`/`E` or `i`/`I`.  (The C++ uses `std::toupper`,
so both cases are covered.) -/
def isIntegralConstant (text : String) : Bool :=
  let cs := text.toList
  if cs.length > 2 ∧ cs.get? 0 = some '0' ∧ (cs.get? 1 = some 'x' ∨ cs.get? 1 = some 'X') then
    (cs.drop 2).all (fun c => !(c = '.' || c = 'P' || c = 'p'))
  else
    cs.all (fun c => !(c = '.' || c = 'E' || c = 'e' || c = 'I' || c = 'i'))

/-!
The matcher keeps a cursor `Current` into `[Definition.begin(),
Definition.end())`; here the cursor is an index `pos` into `tokens`, and
`pos = tokens.length` is the end iterator.  Each C++ member function
returning `bool` and moving `Current` becomes a function
`Nat → Option (Bool × Nat)`: `some (b, p)` is "returned `b` with
`Current` at `p`"; `none` means the C++ would have dereferenced the end
iterator (undefined behaviour) or, for the loops, that the fuel ran out.
-/

/-- `*Current`, defined only before the end iterator. -/
def peek (tokens : List Tok) (pos : Nat) : Option Tok :=
  tokens.get? pos

/-- `FunctionExpressionMatcher::unaryOperator`: skip one optional unary
operator; when one is consumed the result is `advance()`, i.e. whether
the new cursor differs from the end. -/
def unaryOperator (tokens : List Tok) (pos : Nat) : Option (Bool × Nat) :=
  match peek tokens pos with
  | none => none
  | some t =>
    if t.isUnaryOp then some (decide (pos + 1 ≠ tokens.length), pos + 1)
    else some (true, pos)

/-- `FunctionExpressionMatcher::consume`. -/
def consume (tokens : List Tok) (k : Tok) (pos : Nat) : Option (Bool × Nat) :=
  match peek tokens pos with
  | none => none
  | some t => if t = k then some (true, pos + 1) else some (false, pos)

/-- `FunctionExpressionMatcher::unaryExpr`, parameterised by the `expr()`
recursion.  The trailing literal/identifier cases keep the C++ testing
order: `isLiteral` first, then `isAnyIdentifier` with the
`AllowedIdentifiers` membership check, everything else fails. -/
def unaryExprF (tokens : List Tok) (allowed : List String)
    (exprF : Nat → Option (Bool × Nat)) (pos : Nat) : Option (Bool × Nat) :=
  match unaryOperator tokens pos with
  | none => none
  | some (b, p) =>
    if !b then some (false, p) else
    match consume tokens .lparen p with
    | none => none
    | some (c, p1) =>
      if c then
        if p1 = tokens.length then some (false, p1) else
        match exprF p1 with
        | none => none
        | some (e, p2) =>
          if !e then some (false, p2) else
          if p2 = tokens.length then some (false, p2) else
          consume tokens .rparen p2
      else
        match peek tokens p1 with
        | none => none
        | some t =>
          if t.isLiteral then some (true, p1 + 1)
          else if t.isAnyIdentifier then
            if allowed.contains (getTokenName t) then some (true, p1 + 1)
            else some (false, p1)
          else some (false, p1)

/-- The `while` loop of `nonTerminalChainedExpr`, with fuel for the
recursion; each iteration consumes one operator token and one
sub-expression. -/
def chainLoop (tokens : List Tok) (sub : Nat → Option (Bool × Nat))
    (isKind : Tok → Bool) : Nat → Nat → Option (Bool × Nat)
  | 0, _ => none
  | fuel + 1, pos =>
    if pos = tokens.length then some (true, pos)
    else
      match peek tokens pos with
      | none => none
      | some t =>
        if !isKind t then some (true, pos)
        else if pos + 1 = tokens.length then some (false, pos + 1)
        else
          match sub (pos + 1) with
          | none => none
          | some (b, p) =>
            if b then chainLoop tokens sub isKind fuel p else some (false, p)

/-- `FunctionExpressionMatcher::nonTerminalChainedExpr`: a left-chained
level of the precedence ladder. -/
def nonTerminalChainedExpr (tokens : List Tok) (sub : Nat → Option (Bool × Nat))
    (isKind : Tok → Bool) (pos : Nat) : Option (Bool × Nat) :=
  match sub pos with
  | none => none
  | some (b, p) =>
    if !b then some (false, p)
    else if p = tokens.length then some (true, p)
    else chainLoop tokens sub isKind (tokens.length + 1) p

def multiplicativeExprF (tokens : List Tok) (allowed : List String)
    (exprF : Nat → Option (Bool × Nat)) : Nat → Option (Bool × Nat) :=
  nonTerminalChainedExpr tokens (unaryExprF tokens allowed exprF) isMulOp

def additiveExprF (tokens : List Tok) (allowed : List String)
    (exprF : Nat → Option (Bool × Nat)) : Nat → Option (Bool × Nat) :=
  nonTerminalChainedExpr tokens (multiplicativeExprF tokens allowed exprF) isAddOp

def shiftExprF (tokens : List Tok) (allowed : List String)
    (exprF : Nat → Option (Bool × Nat)) : Nat → Option (Bool × Nat) :=
  nonTerminalChainedExpr tokens (additiveExprF tokens allowed exprF) isShiftOp

/-- `FunctionExpressionMatcher::compareExpr`: one optional, non-chained
`<=>`. -/
def compareExprF (tokens : List Tok) (allowed : List String)
    (exprF : Nat → Option (Bool × Nat)) (pos : Nat) : Option (Bool × Nat) :=
  match shiftExprF tokens allowed exprF pos with
  | none => none
  | some (b, p) =>
    if !b then some (false, p)
    else if p = tokens.length then some (true, p)
    else
      match peek tokens p with
      | none => none
      | some t =>
        if t = .spaceship then
          if p + 1 = tokens.length then some (false, p + 1)
          else
            match shiftExprF tokens allowed exprF (p + 1) with
            | none => none
            | some (b2, q) => if b2 then some (true, q) else some (false, q)
        else some (true, p)

def relationalExprF (tokens : List Tok) (allowed : List String)
    (exprF : Nat → Option (Bool × Nat)) : Nat → Option (Bool × Nat) :=
  nonTerminalChainedExpr tokens (compareExprF tokens allowed exprF) isRelOp

def equalityExprF (tokens : List Tok) (allowed : List String)
    (exprF : Nat → Option (Bool × Nat)) : Nat → Option (Bool × Nat) :=
  nonTerminalChainedExpr tokens (relationalExprF tokens allowed exprF) isEqOp

def andExprF (tokens : List Tok) (allowed : List String)
    (exprF : Nat → Option (Bool × Nat)) : Nat → Option (Bool × Nat) :=
  nonTerminalChainedExpr tokens (equalityExprF tokens allowed exprF) isAndOp

def exclusiveOrExprF (tokens : List Tok) (allowed : List String)
    (exprF : Nat → Option (Bool × Nat)) : Nat → Option (Bool × Nat) :=
  nonTerminalChainedExpr tokens (andExprF tokens allowed exprF) isXorOp

def inclusiveOrExprF (tokens : List Tok) (allowed : List String)
    (exprF : Nat → Option (Bool × Nat)) : Nat → Option (Bool × Nat) :=
  nonTerminalChainedExpr tokens (exclusiveOrExprF tokens allowed exprF) isOrOp

def logicalAndExprF (tokens : List Tok) (allowed : List String)
    (exprF : Nat → Option (Bool × Nat)) : Nat → Option (Bool × Nat) :=
  nonTerminalChainedExpr tokens (inclusiveOrExprF tokens allowed exprF) isLAndOp

def logicalOrExprF (tokens : List Tok) (allowed : List String)
    (exprF : Nat → Option (Bool × Nat)) : Nat → Option (Bool × Nat) :=
  nonTerminalChainedExpr tokens (logicalAndExprF tokens allowed exprF) isLOrOp

/-- `FunctionExpressionMatcher::conditionalExpr`: ternary `?:`, with the
GNU `x ?: y` elision. -/
def conditionalExprF (tokens : List Tok) (allowed : List String)
    (exprF : Nat → Option (Bool × Nat)) (pos : Nat) : Option (Bool × Nat) :=
  match logicalOrExprF tokens allowed exprF pos with
  | none => none
  | some (b, p) =>
    if !b then some (false, p)
    else if p = tokens.length then some (true, p)
    else
      match peek tokens p with
      | none => none
      | some t =>
        if t = .question then
          if p + 1 = tokens.length then some (false, p + 1)
          else
            match peek tokens (p + 1) with
            | none => none
            | some t2 =>
              if t2 = .colon then
                if p + 2 = tokens.length then some (false, p + 2)
                else
                  match exprF (p + 2) with
                  | none => none
                  | some (e, q) => if e then some (true, q) else some (false, q)
              else
                match exprF (p + 1) with
                | none => none
                | some (e, q) =>
                  if !e then some (false, q)
                  else if q = tokens.length then some (false, q)
                  else
                    match peek tokens q with
                    | none => none
                    | some t3 =>
                      if t3 = .colon then
                        if q + 1 = tokens.length then some (false, q + 1)
                        else
                          match exprF (q + 1) with
                          | none => none
                          | some (e2, r) => if e2 then some (true, r) else some (false, r)
                      else some (false, q)
        else some (true, p)

/-- `FunctionExpressionMatcher::expr`, i.e. `conditionalExpr`, tied
through a fuel parameter: each nested `expr()` re-entry (inside
parentheses or after `?`/`:`) happens at a strictly larger cursor, so
`tokens.length + 2` units of fuel always suffice (proved below). -/
def exprFuel (tokens : List Tok) (allowed : List String) :
    Nat → Nat → Option (Bool × Nat)
  | 0, _ => none
  | fuel + 1, pos => conditionalExprF tokens allowed (exprFuel tokens allowed fuel) pos

/-- `FunctionExpressionMatcher::match`: `expr() && Current == End`. -/
def matchTokens (tokens : List Tok) (allowed : List String) : Option Bool :=
  (exprFuel tokens allowed (tokens.length + 2) 0).map
    (fun bp => bp.1 && decide (bp.2 = tokens.length))

/-- Token list of the macro body `(x_)*(x_)` (scenario D of the spec). -/
def parenMulTokens : List Tok :=
  [.lparen, .ident "x_", .rparen, .star, .lparen, .ident "x_", .rparen]

/-- Token list of `sqrt((x_)*(x_) + (y_)*(y_))` (scenario D of the spec). -/
def sqrtTokens : List Tok :=
  [.ident "sqrt", .lparen,
   .lparen, .ident "x_", .rparen, .star, .lparen, .ident "x_", .rparen,
   .plus,
   .lparen, .ident "y_", .rparen, .star, .lparen, .ident "y_", .rparen,
   .rparen]

/-- Every identifier token in the half-open index range `[lo, hi)` of
`tokens` is one of the allowed identifiers. -/
def SpanOK (tokens : List Tok) (allowed : List String) (lo hi : Nat) : Prop :=
  ∀ i n, lo ≤ i → i < hi → tokens.get? i = some (Tok.ident n) →
    allowed.contains n = true

/-- Specification of one parser entry at cursor `pos`: it returns a
definite result with the cursor inside `[pos, tokens.length]`, and on
success the cursor strictly advanced over a span whose identifier tokens
are all allowed. -/
def PSpec (tokens : List Tok) (allowed : List String)
    (f : Nat → Option (Bool × Nat)) (pos : Nat) : Prop :=
  ∃ b p, f pos = some (b, p) ∧ pos ≤ p ∧ p ≤ tokens.length ∧
    (b = true → pos < p ∧ SpanOK tokens allowed pos p)

/-- The induction hypothesis about the tied-back `expr()` recursion: it
meets `PSpec` at every cursor strictly beyond `lo` (each nested `expr()`
re-entry consumes at least one token first). -/
def ExprHyp (tokens : List Tok) (allowed : List String)
    (exprF : Nat → Option (Bool × Nat)) (lo : Nat) : Prop :=
  ∀ q, lo < q → q < tokens.length → PSpec tokens allowed exprF q

/-- A whole precedence level meets `PSpec` at every cursor from `lo` on. -/
def LevelSpec (tokens : List Tok) (allowed : List String)
    (f : Nat → Option (Bool × Nat)) (lo : Nat) : Prop :=
  ∀ pos, lo ≤ pos → pos < tokens.length → PSpec tokens allowed f pos

end MacroToFunction

/-!
## Lemmas about the tracker
-/

namespace MacroCondition

theorem macroDiags_eq_viewDiags (m : ConditionMacro) :
    macroDiags m = viewDiags (defProj m) := rfl

theorem viewDiags_names (v : DefView) :
    ∀ d ∈ viewDiags v, d.macroName = v.name := by
  intro d hd
  unfold viewDiags at hd
  split at hd
  · rcases List.mem_cons.mp hd with h | h
    · simp [h]
    · obtain ⟨l, _, rfl⟩ := List.mem_map.mp h
      rfl
  · exact absurd hd (List.not_mem_nil d)

theorem filter_endOfMainFile (M : String) (ms : List ConditionMacro) :
    (endOfMainFile ms).filter (fun d => d.macroName == M) =
      (mviews M ms).flatMap viewDiags := by
  induction ms with
  | nil => rfl
  | cons m ms ih =>
    have hstep : endOfMainFile (m :: ms) = macroDiags m ++ endOfMainFile ms := rfl
    rw [hstep, List.filter_append, ih]
    by_cases h : m.name = M
    · have h1 : (macroDiags m).filter (fun d => d.macroName == M) = macroDiags m := by
        apply List.filter_eq_self.mpr
        intro d hd
        have := viewDiags_names (defProj m) d (by rwa [macroDiags_eq_viewDiags] at hd)
        simp [this, defProj, h]
      have h2 : mviews M (m :: ms) = defProj m :: mviews M ms := by
        simp [mviews, List.filter_cons, h]
      rw [h1, h2, List.flatMap_cons, macroDiags_eq_viewDiags]
    · have h1 : (macroDiags m).filter (fun d => d.macroName == M) = [] := by
        apply List.filter_eq_nil_iff.mpr
        intro d hd
        have := viewDiags_names (defProj m) d (by rwa [macroDiags_eq_viewDiags] at hd)
        simp [this, defProj, h]
      have h2 : mviews M (m :: ms) = mviews M ms := by
        simp [mviews, List.filter_cons, h]
      rw [h1, h2, List.nil_append]

theorem mviews_markValueUsed (M n : String) (loc : Nat) (ms : List ConditionMacro) :
    mviews M (markValueUsed n loc ms) = mviews M ms := by
  induction ms with
  | nil => rfl
  | cons m ms ih =>
    obtain ⟨nm, dl, don, dc, dcl, vu, vul⟩ := m
    unfold markValueUsed
    by_cases h : nm = n
    · subst h
      simp only [if_pos rfl]
      by_cases hM : nm = M
      · subst hM
        simp [mviews, List.filter_cons, defProj]
      · simp [mviews, List.filter_cons, hM]
    · simp only [if_neg h]
      by_cases hM : nm = M
      · subst hM
        simp only [mviews, List.filter_cons, beq_self_eq_true, if_pos]
        simp only [mviews] at ih
        simp [ih]
      · simp only [mviews, List.filter_cons]
        have : ((ConditionMacro.mk nm dl don dc dcl vu vul).name == M) = false := by
          simpa using hM
        rw [this]
        simpa [mviews] using ih

theorem mviews_scanCondIdents (M : String) (loc : Nat) :
    ∀ (ids : List String) (b : Bool) (ms : List ConditionMacro),
      mviews M (scanCondIdents loc ids b ms) = mviews M ms := by
  intro ids
  induction ids with
  | nil => intro b ms; rfl
  | cons n rest ih =>
    intro b ms
    unfold scanCondIdents
    by_cases h : n = "defined"
    · rw [if_pos h]
      exact ih true ms
    · rw [if_neg h]
      cases b with
      | true =>
        show mviews M (scanCondIdents loc rest false ms) = mviews M ms
        exact ih false ms
      | false =>
        show mviews M (scanCondIdents loc rest false (markValueUsed n loc ms)) =
          mviews M ms
        rw [ih false (markValueUsed n loc ms), mviews_markValueUsed]

theorem mviews_markDefinedChecked_ne (M n : String) (loc : Nat)
    (hn : n ≠ M) (ms : List ConditionMacro) :
    mviews M (markDefinedChecked n loc ms) = mviews M ms := by
  induction ms with
  | nil => rfl
  | cons m ms ih =>
    obtain ⟨nm, dl, don, dc, dcl, vu, vul⟩ := m
    unfold markDefinedChecked
    by_cases h : nm = n
    · subst h
      simp only [if_pos rfl]
      simp [mviews, List.filter_cons, hn]
    · simp only [if_neg h]
      by_cases hM : nm = M
      · subst hM
        simp only [mviews, List.filter_cons, beq_self_eq_true, if_pos]
        simp only [mviews] at ih
        simp [ih]
      · simp only [mviews, List.filter_cons]
        have : ((ConditionMacro.mk nm dl don dc dcl vu vul).name == M) = false := by
          simpa using hM
        rw [this]
        simpa [mviews] using ih

theorem mviews_markDefinedChecked_eq (M : String) (loc : Nat)
    (ms : List ConditionMacro) :
    mviews M (markDefinedChecked M loc ms) = updFirstView loc (mviews M ms) := by
  induction ms with
  | nil => rfl
  | cons m ms ih =>
    obtain ⟨nm, dl, don, dc, dcl, vu, vul⟩ := m
    unfold markDefinedChecked
    by_cases h : nm = M
    · subst h
      simp only [if_pos rfl]
      simp [mviews, List.filter_cons, defProj, updFirstView]
    · simp only [if_neg h]
      simp only [mviews, List.filter_cons]
      have : ((ConditionMacro.mk nm dl don dc dcl vu vul).name == M) = false := by
        simpa using h
      rw [this]
      simpa [mviews] using ih

theorem mviews_define_other (M n : String) (defLoc : Nat) (tc : Nat)
    (hn : n ≠ M) (ms : List ConditionMacro) :
    mviews M (ms ++ [⟨n, defLoc, decide (tc = 0), false, [], false, []⟩]) =
      mviews M ms := by
  unfold mviews
  rw [List.filter_append]
  have : List.filter (fun m => m.name == M)
      [(⟨n, defLoc, decide (tc = 0), false, [], false, []⟩ : ConditionMacro)] = [] := by
    simp [List.filter_cons, hn]
  rw [this, List.append_nil]

theorem mviews_define_same (M : String) (defLoc : Nat) (tc : Nat)
    (ms : List ConditionMacro) :
    mviews M (ms ++ [⟨M, defLoc, decide (tc = 0), false, [], false, []⟩]) =
      mviews M ms ++ [⟨M, defLoc, decide (tc = 0), false, []⟩] := by
  unfold mviews
  rw [List.filter_append, List.map_append]
  congr 1
  simp [List.filter_cons, defProj]

theorem bulkTests_nilLocs (vs : List DefView) : bulkTests [] vs = vs := by
  cases vs with
  | nil => rfl
  | cons v vs => simp [bulkTests]

theorem bulkTests_cons (l : Nat) (L : List Nat) (vs : List DefView) :
    bulkTests (l :: L) vs = bulkTests L (updFirstView l vs) := by
  cases vs with
  | nil => rfl
  | cons v vs => simp [bulkTests, updFirstView]


theorem mviews_fold_noDefine (M : String) :
    ∀ (evs : List PPEvent) (ms : List ConditionMacro),
      (∀ e ∈ evs, isTrackableDefineOf M e = false) →
      mviews M (evs.foldl stepEvent ms) =
        bulkTests (testLocsFor M evs) (mviews M ms) := by
  intro evs
  induction evs with
  | nil =>
    intro ms _
    rw [List.foldl_nil]
    exact (bulkTests_nilLocs (mviews M ms)).symm
  | cons e evs ih =>
    intro ms h
    have hrest : ∀ e' ∈ evs, isTrackableDefineOf M e' = false :=
      fun e' he' => h e' (List.mem_cons_of_mem _ he')
    cases e with
    | macroDefined n dl hf fl bi tc =>
      have hT : testLocsFor M (PPEvent.macroDefined n dl hf fl bi tc :: evs) =
          testLocsFor M evs := by
        simp [testLocsFor, List.filterMap_cons, definednessTestLocOf]
      rw [List.foldl_cons, hT]
      cases hf with
      | false => exact ih ms hrest
      | true =>
        cases fl with
        | true => exact ih ms hrest
        | false =>
          cases bi with
          | true => exact ih ms hrest
          | false =>
            have hn : n ≠ M := by
              have := h _ (List.mem_cons_self _ _)
              simpa [isTrackableDefineOf] using this
            show mviews M
                (evs.foldl stepEvent
                  (ms ++ [⟨n, dl, decide (tc = 0), false, [], false, []⟩])) = _
            rw [ih _ hrest, mviews_define_other M n dl tc hn]
    | definedOp n l =>
      by_cases hn : n = M
      · subst hn
        have hT : testLocsFor n (PPEvent.definedOp n l :: evs) =
            l :: testLocsFor n evs := by
          simp [testLocsFor, List.filterMap_cons, definednessTestLocOf]
        rw [List.foldl_cons, hT]
        show mviews n (evs.foldl stepEvent (markDefinedChecked n l ms)) = _
        rw [ih _ hrest, mviews_markDefinedChecked_eq, ← bulkTests_cons]
      · have hT : testLocsFor M (PPEvent.definedOp n l :: evs) =
            testLocsFor M evs := by
          simp [testLocsFor, List.filterMap_cons, definednessTestLocOf, hn]
        rw [List.foldl_cons, hT]
        show mviews M (evs.foldl stepEvent (markDefinedChecked n l ms)) = _
        rw [ih _ hrest, mviews_markDefinedChecked_ne M n l hn]
    | ifdefDir n l =>
      by_cases hn : n = M
      · subst hn
        have hT : testLocsFor n (PPEvent.ifdefDir n l :: evs) =
            l :: testLocsFor n evs := by
          simp [testLocsFor, List.filterMap_cons, definednessTestLocOf]
        rw [List.foldl_cons, hT]
        show mviews n (evs.foldl stepEvent (markDefinedChecked n l ms)) = _
        rw [ih _ hrest, mviews_markDefinedChecked_eq, ← bulkTests_cons]
      · have hT : testLocsFor M (PPEvent.ifdefDir n l :: evs) =
            testLocsFor M evs := by
          simp [testLocsFor, List.filterMap_cons, definednessTestLocOf, hn]
        rw [List.foldl_cons, hT]
        show mviews M (evs.foldl stepEvent (markDefinedChecked n l ms)) = _
        rw [ih _ hrest, mviews_markDefinedChecked_ne M n l hn]
    | ifndefDir n l =>
      by_cases hn : n = M
      · subst hn
        have hT : testLocsFor n (PPEvent.ifndefDir n l :: evs) =
            l :: testLocsFor n evs := by
          simp [testLocsFor, List.filterMap_cons, definednessTestLocOf]
        rw [List.foldl_cons, hT]
        show mviews n (evs.foldl stepEvent (markDefinedChecked n l ms)) = _
        rw [ih _ hrest, mviews_markDefinedChecked_eq, ← bulkTests_cons]
      · have hT : testLocsFor M (PPEvent.ifndefDir n l :: evs) =
            testLocsFor M evs := by
          simp [testLocsFor, List.filterMap_cons, definednessTestLocOf, hn]
        rw [List.foldl_cons, hT]
        show mviews M (evs.foldl stepEvent (markDefinedChecked n l ms)) = _
        rw [ih _ hrest, mviews_markDefinedChecked_ne M n l hn]
    | elifdefDir n l =>
      by_cases hn : n = M
      · subst hn
        have hT : testLocsFor n (PPEvent.elifdefDir n l :: evs) =
            l :: testLocsFor n evs := by
          simp [testLocsFor, List.filterMap_cons, definednessTestLocOf]
        rw [List.foldl_cons, hT]
        show mviews n (evs.foldl stepEvent (markDefinedChecked n l ms)) = _
        rw [ih _ hrest, mviews_markDefinedChecked_eq, ← bulkTests_cons]
      · have hT : testLocsFor M (PPEvent.elifdefDir n l :: evs) =
            testLocsFor M evs := by
          simp [testLocsFor, List.filterMap_cons, definednessTestLocOf, hn]
        rw [List.foldl_cons, hT]
        show mviews M (evs.foldl stepEvent (markDefinedChecked n l ms)) = _
        rw [ih _ hrest, mviews_markDefinedChecked_ne M n l hn]
    | elifndefDir n l =>
      by_cases hn : n = M
      · subst hn
        have hT : testLocsFor n (PPEvent.elifndefDir n l :: evs) =
            l :: testLocsFor n evs := by
          simp [testLocsFor, List.filterMap_cons, definednessTestLocOf]
        rw [List.foldl_cons, hT]
        show mviews n (evs.foldl stepEvent (markDefinedChecked n l ms)) = _
        rw [ih _ hrest, mviews_markDefinedChecked_eq, ← bulkTests_cons]
      · have hT : testLocsFor M (PPEvent.elifndefDir n l :: evs) =
            testLocsFor M evs := by
          simp [testLocsFor, List.filterMap_cons, definednessTestLocOf, hn]
        rw [List.foldl_cons, hT]
        show mviews M (evs.foldl stepEvent (markDefinedChecked n l ms)) = _
        rw [ih _ hrest, mviews_markDefinedChecked_ne M n l hn]
    | ifDir l ids =>
      have hT : testLocsFor M (PPEvent.ifDir l ids :: evs) = testLocsFor M evs := by
        simp [testLocsFor, List.filterMap_cons, definednessTestLocOf]
      rw [List.foldl_cons, hT]
      show mviews M (evs.foldl stepEvent (scanCondIdents l ids false ms)) = _
      rw [ih _ hrest, mviews_scanCondIdents]
    | elifDir l =>
      have hT : testLocsFor M (PPEvent.elifDir l :: evs) = testLocsFor M evs := by
        simp [testLocsFor, List.filterMap_cons, definednessTestLocOf]
      rw [List.foldl_cons, hT]
      exact ih ms hrest
    | elifdefRange l =>
      have hT : testLocsFor M (PPEvent.elifdefRange l :: evs) = testLocsFor M evs := by
        simp [testLocsFor, List.filterMap_cons, definednessTestLocOf]
      rw [List.foldl_cons, hT]
      exact ih ms hrest
    | elifndefRange l =>
      have hT : testLocsFor M (PPEvent.elifndefRange l :: evs) = testLocsFor M evs := by
        simp [testLocsFor, List.filterMap_cons, definednessTestLocOf]
      rw [List.foldl_cons, hT]
      exact ih ms hrest
    | elseDir l =>
      have hT : testLocsFor M (PPEvent.elseDir l :: evs) = testLocsFor M evs := by
        simp [testLocsFor, List.filterMap_cons, definednessTestLocOf]
      rw [List.foldl_cons, hT]
      exact ih ms hrest
    | endifDir l =>
      have hT : testLocsFor M (PPEvent.endifDir l :: evs) = testLocsFor M evs := by
        simp [testLocsFor, List.filterMap_cons, definednessTestLocOf]
      rw [List.foldl_cons, hT]
      exact ih ms hrest

theorem silentRun_step (M : String) (e : PPEvent) (ms : List ConditionMacro)
    (hne : mviews M ms ≠ []) (hInv : SilentRun (mviews M ms)) :
    mviews M (stepEvent ms e) ≠ [] ∧ SilentRun (mviews M (stepEvent ms e)) := by
  cases e with
  | macroDefined n dl hf fl bi tc =>
    cases hf with
    | false => exact ⟨hne, hInv⟩
    | true =>
      cases fl with
      | true => exact ⟨hne, hInv⟩
      | false =>
        cases bi with
        | true => exact ⟨hne, hInv⟩
        | false =>
          by_cases hn : n = M
          · subst hn
            show mviews n (ms ++ [⟨n, dl, decide (tc = 0), false, [], false, []⟩]) ≠ [] ∧
              SilentRun (mviews n (ms ++ [⟨n, dl, decide (tc = 0), false, [], false, []⟩]))
            rw [mviews_define_same]
            obtain ⟨v, vs, hv⟩ : ∃ v vs, mviews n ms = v :: vs := by
              cases hmv : mviews n ms with
              | nil => exact absurd hmv hne
              | cons v vs => exact ⟨v, vs, rfl⟩
            rw [hv]
            rw [hv] at hInv
            obtain ⟨h1, htail⟩ := hInv
            refine ⟨List.cons_ne_nil _ _, h1, ?_⟩
            intro w hw
            rcases List.mem_append.mp hw with hw | hw
            · exact htail w hw
            · rw [List.mem_singleton.mp hw]
          · show mviews M (ms ++ [⟨n, dl, decide (tc = 0), false, [], false, []⟩]) ≠ [] ∧
              SilentRun (mviews M (ms ++ [⟨n, dl, decide (tc = 0), false, [], false, []⟩]))
            rw [mviews_define_other M n dl tc hn]
            exact ⟨hne, hInv⟩
  | definedOp n l =>
    by_cases hn : n = M
    · subst hn
      show mviews n (markDefinedChecked n l ms) ≠ [] ∧
        SilentRun (mviews n (markDefinedChecked n l ms))
      rw [mviews_markDefinedChecked_eq]
      obtain ⟨v, vs, hv⟩ : ∃ v vs, mviews n ms = v :: vs := by
        cases hmv : mviews n ms with
        | nil => exact absurd hmv hne
        | cons v vs => exact ⟨v, vs, rfl⟩
      rw [hv]
      rw [hv] at hInv
      exact ⟨List.cons_ne_nil _ _, hInv.1, hInv.2⟩
    · show mviews M (markDefinedChecked n l ms) ≠ [] ∧
        SilentRun (mviews M (markDefinedChecked n l ms))
      rw [mviews_markDefinedChecked_ne M n l hn]
      exact ⟨hne, hInv⟩
  | ifdefDir n l =>
    by_cases hn : n = M
    · subst hn
      show mviews n (markDefinedChecked n l ms) ≠ [] ∧
        SilentRun (mviews n (markDefinedChecked n l ms))
      rw [mviews_markDefinedChecked_eq]
      obtain ⟨v, vs, hv⟩ : ∃ v vs, mviews n ms = v :: vs := by
        cases hmv : mviews n ms with
        | nil => exact absurd hmv hne
        | cons v vs => exact ⟨v, vs, rfl⟩
      rw [hv]
      rw [hv] at hInv
      exact ⟨List.cons_ne_nil _ _, hInv.1, hInv.2⟩
    · show mviews M (markDefinedChecked n l ms) ≠ [] ∧
        SilentRun (mviews M (markDefinedChecked n l ms))
      rw [mviews_markDefinedChecked_ne M n l hn]
      exact ⟨hne, hInv⟩
  | ifndefDir n l =>
    by_cases hn : n = M
    · subst hn
      show mviews n (markDefinedChecked n l ms) ≠ [] ∧
        SilentRun (mviews n (markDefinedChecked n l ms))
      rw [mviews_markDefinedChecked_eq]
      obtain ⟨v, vs, hv⟩ : ∃ v vs, mviews n ms = v :: vs := by
        cases hmv : mviews n ms with
        | nil => exact absurd hmv hne
        | cons v vs => exact ⟨v, vs, rfl⟩
      rw [hv]
      rw [hv] at hInv
      exact ⟨List.cons_ne_nil _ _, hInv.1, hInv.2⟩
    · show mviews M (markDefinedChecked n l ms) ≠ [] ∧
        SilentRun (mviews M (markDefinedChecked n l ms))
      rw [mviews_markDefinedChecked_ne M n l hn]
      exact ⟨hne, hInv⟩
  | elifdefDir n l =>
    by_cases hn : n = M
    · subst hn
      show mviews n (markDefinedChecked n l ms) ≠ [] ∧
        SilentRun (mviews n (markDefinedChecked n l ms))
      rw [mviews_markDefinedChecked_eq]
      obtain ⟨v, vs, hv⟩ : ∃ v vs, mviews n ms = v :: vs := by
        cases hmv : mviews n ms with
        | nil => exact absurd hmv hne
        | cons v vs => exact ⟨v, vs, rfl⟩
      rw [hv]
      rw [hv] at hInv
      exact ⟨List.cons_ne_nil _ _, hInv.1, hInv.2⟩
    · show mviews M (markDefinedChecked n l ms) ≠ [] ∧
        SilentRun (mviews M (markDefinedChecked n l ms))
      rw [mviews_markDefinedChecked_ne M n l hn]
      exact ⟨hne, hInv⟩
  | elifndefDir n l =>
    by_cases hn : n = M
    · subst hn
      show mviews n (markDefinedChecked n l ms) ≠ [] ∧
        SilentRun (mviews n (markDefinedChecked n l ms))
      rw [mviews_markDefinedChecked_eq]
      obtain ⟨v, vs, hv⟩ : ∃ v vs, mviews n ms = v :: vs := by
        cases hmv : mviews n ms with
        | nil => exact absurd hmv hne
        | cons v vs => exact ⟨v, vs, rfl⟩
      rw [hv]
      rw [hv] at hInv
      exact ⟨List.cons_ne_nil _ _, hInv.1, hInv.2⟩
    · show mviews M (markDefinedChecked n l ms) ≠ [] ∧
        SilentRun (mviews M (markDefinedChecked n l ms))
      rw [mviews_markDefinedChecked_ne M n l hn]
      exact ⟨hne, hInv⟩
  | ifDir l ids =>
    show mviews M (scanCondIdents l ids false ms) ≠ [] ∧
      SilentRun (mviews M (scanCondIdents l ids false ms))
    rw [mviews_scanCondIdents M l ids false ms]
    exact ⟨hne, hInv⟩
  | elifDir l => exact ⟨hne, hInv⟩
  | elifdefRange l => exact ⟨hne, hInv⟩
  | elifndefRange l => exact ⟨hne, hInv⟩
  | elseDir l => exact ⟨hne, hInv⟩
  | endifDir l => exact ⟨hne, hInv⟩

theorem silentRun_fold (M : String) :
    ∀ (evs : List PPEvent) (ms : List ConditionMacro),
      mviews M ms ≠ [] → SilentRun (mviews M ms) →
      mviews M (evs.foldl stepEvent ms) ≠ [] ∧
        SilentRun (mviews M (evs.foldl stepEvent ms)) := by
  intro evs
  induction evs with
  | nil => intro ms hne hInv; exact ⟨hne, hInv⟩
  | cons e evs ih =>
    intro ms hne hInv
    obtain ⟨hne2, hInv2⟩ := silentRun_step M e ms hne hInv
    exact ih (stepEvent ms e) hne2 hInv2

theorem uncheckedViews_flatMap :
    ∀ vs : List DefView, (∀ w ∈ vs, w.definedChecked = false) →
      vs.flatMap viewDiags = [] := by
  intro vs
  induction vs with
  | nil => intro _; rfl
  | cons w ws ih =>
    intro h
    rw [List.flatMap_cons]
    have hw : viewDiags w = [] := by
      unfold viewDiags
      rw [h w (List.mem_cons_self _ _)]
      simp
    rw [hw, List.nil_append]
    exact ih (fun x hx => h x (List.mem_cons_of_mem _ hx))

theorem silentRun_flatMap (vs : List DefView) (h : SilentRun vs) :
    vs.flatMap viewDiags = [] := by
  cases vs with
  | nil => rfl
  | cons v vs =>
    obtain ⟨h1, h2⟩ := h
    rw [List.flatMap_cons]
    have hv : viewDiags v = [] := by
      unfold viewDiags
      rw [h1]
      simp
    rw [hv, List.nil_append]
    exact uncheckedViews_flatMap vs h2

theorem markDefinedChecked_of_not_found (n : String) (l : Nat) :
    ∀ ms : List ConditionMacro, (∀ m ∈ ms, m.name ≠ n) →
      markDefinedChecked n l ms = ms := by
  intro ms
  induction ms with
  | nil => intro _; rfl
  | cons m ms ih =>
    intro h
    unfold markDefinedChecked
    rw [if_neg (h m (List.mem_cons_self _ _))]
    rw [ih (fun x hx => h x (List.mem_cons_of_mem _ hx))]

theorem allViews_markValueUsed (n : String) (l : Nat) (ms : List ConditionMacro) :
    allViews (markValueUsed n l ms) = allViews ms := by
  induction ms with
  | nil => rfl
  | cons m ms ih =>
    obtain ⟨nm, dl, don, dc, dcl, vu, vul⟩ := m
    unfold markValueUsed
    by_cases h : nm = n
    · simp [h, allViews, defProj]
    · simp only [if_neg h, allViews, List.map_cons]
      simpa [allViews] using ih

theorem allViews_scanCondIdents (l : Nat) :
    ∀ (ids : List String) (b : Bool) (ms : List ConditionMacro),
      allViews (scanCondIdents l ids b ms) = allViews ms := by
  intro ids
  induction ids with
  | nil => intro b ms; rfl
  | cons n rest ih =>
    intro b ms
    unfold scanCondIdents
    by_cases h : n = "defined"
    · rw [if_pos h]
      exact ih true ms
    · rw [if_neg h]
      cases b with
      | true =>
        show allViews (scanCondIdents l rest false ms) = allViews ms
        exact ih false ms
      | false =>
        show allViews (scanCondIdents l rest false (markValueUsed n l ms)) = allViews ms
        rw [ih false (markValueUsed n l ms), allViews_markValueUsed]

theorem allViews_markDefinedChecked (n : String) (l : Nat) (ms : List ConditionMacro) :
    allViews (markDefinedChecked n l ms) =
      markDefinedCheckedView n l (allViews ms) := by
  induction ms with
  | nil => rfl
  | cons m ms ih =>
    obtain ⟨nm, dl, don, dc, dcl, vu, vul⟩ := m
    unfold markDefinedChecked
    by_cases h : nm = n
    · simp [h, allViews, defProj, markDefinedCheckedView]
    · simp only [if_neg h, allViews, List.map_cons]
      unfold markDefinedCheckedView
      have hname : (defProj (ConditionMacro.mk nm dl don dc dcl vu vul)).name = nm := rfl
      rw [hname, if_neg h]
      simpa [allViews] using ih

theorem allViews_step (ms : List ConditionMacro) (e : PPEvent) :
    allViews (stepEvent ms e) = stepView (allViews ms) e := by
  cases e with
  | macroDefined n dl hf fl bi tc =>
    cases hf with
    | false => rfl
    | true =>
      cases fl with
      | true => rfl
      | false =>
        cases bi with
        | true => rfl
        | false =>
          show allViews (ms ++ [⟨n, dl, decide (tc = 0), false, [], false, []⟩]) =
            allViews ms ++ [⟨n, dl, decide (tc = 0), false, []⟩]
          rw [allViews, List.map_append]
          rfl
  | definedOp n l => exact allViews_markDefinedChecked n l ms
  | ifdefDir n l => exact allViews_markDefinedChecked n l ms
  | ifndefDir n l => exact allViews_markDefinedChecked n l ms
  | elifdefDir n l => exact allViews_markDefinedChecked n l ms
  | elifndefDir n l => exact allViews_markDefinedChecked n l ms
  | ifDir l ids => exact allViews_scanCondIdents l ids false ms
  | elifDir l => rfl
  | elifdefRange l => rfl
  | elifndefRange l => rfl
  | elseDir l => rfl
  | endifDir l => rfl

theorem allViews_fold :
    ∀ (evs : List PPEvent) (ms : List ConditionMacro),
      allViews (evs.foldl stepEvent ms) = evs.foldl stepView (allViews ms) := by
  intro evs
  induction evs with
  | nil => intro ms; rfl
  | cons e evs ih =>
    intro ms
    rw [List.foldl_cons, List.foldl_cons, ih, allViews_step]

theorem foldView_filter_valueRef :
    ∀ (evs : List PPEvent) (vs : List DefView),
      ((evs.filter (fun e => !isValueRefEvent e)).foldl stepView vs) =
        evs.foldl stepView vs := by
  intro evs
  induction evs with
  | nil => intro vs; rfl
  | cons e evs ih =>
    intro vs
    cases e with
    | ifDir l ids =>
      show ((evs.filter (fun e => !isValueRefEvent e)).foldl stepView vs) =
        evs.foldl stepView (stepView vs (.ifDir l ids))
      exact ih vs
    | macroDefined n dl hf fl bi tc => exact ih (stepView vs _)
    | definedOp n l => exact ih (stepView vs _)
    | ifdefDir n l => exact ih (stepView vs _)
    | ifndefDir n l => exact ih (stepView vs _)
    | elifdefDir n l => exact ih (stepView vs _)
    | elifndefDir n l => exact ih (stepView vs _)
    | elifDir l => exact ih (stepView vs _)
    | elifdefRange l => exact ih (stepView vs _)
    | elifndefRange l => exact ih (stepView vs _)
    | elseDir l => exact ih (stepView vs _)
    | endifDir l => exact ih (stepView vs _)

theorem endOfMainFile_views (ms : List ConditionMacro) :
    endOfMainFile ms = (allViews ms).flatMap viewDiags := by
  induction ms with
  | nil => rfl
  | cons m ms ih =>
    show macroDiags m ++ endOfMainFile ms = viewDiags (defProj m) ++ _
    rw [ih, macroDiags_eq_viewDiags]
    rfl

theorem mem_markDefinedChecked (n : String) (l : Nat) :
    ∀ (ms : List ConditionMacro) (x : ConditionMacro), x ∈ markDefinedChecked n l ms →
      x ∈ ms ∨ ∃ m, m ∈ ms ∧
        x = { m with definedChecked := true,
                     definedCheckedLocs := m.definedCheckedLocs ++ [l] } := by
  intro ms
  induction ms with
  | nil => intro x hx; exact absurd hx (List.not_mem_nil x)
  | cons m ms ih =>
    intro x hx
    unfold markDefinedChecked at hx
    by_cases h : m.name = n
    · rw [if_pos h] at hx
      rcases List.mem_cons.mp hx with hx | hx
      · exact Or.inr ⟨m, List.mem_cons_self _ _, hx⟩
      · exact Or.inl (List.mem_cons_of_mem _ hx)
    · rw [if_neg h] at hx
      rcases List.mem_cons.mp hx with hx | hx
      · exact Or.inl (hx ▸ List.mem_cons_self _ _)
      · rcases ih x hx with h1 | ⟨m2, hm2, hx2⟩
        · exact Or.inl (List.mem_cons_of_mem _ h1)
        · exact Or.inr ⟨m2, List.mem_cons_of_mem _ hm2, hx2⟩

theorem mem_markValueUsed_defProj (n : String) (l : Nat) :
    ∀ (ms : List ConditionMacro) (x : ConditionMacro), x ∈ markValueUsed n l ms →
      ∃ m, m ∈ ms ∧ defProj x = defProj m := by
  intro ms
  induction ms with
  | nil => intro x hx; exact absurd hx (List.not_mem_nil x)
  | cons m ms ih =>
    intro x hx
    unfold markValueUsed at hx
    by_cases h : m.name = n
    · rw [if_pos h] at hx
      rcases List.mem_cons.mp hx with hx | hx
      · exact ⟨m, List.mem_cons_self _ _, by subst hx; rfl⟩
      · exact ⟨x, List.mem_cons_of_mem _ hx, rfl⟩
    · rw [if_neg h] at hx
      rcases List.mem_cons.mp hx with hx | hx
      · exact ⟨m, List.mem_cons_self _ _, by subst hx; rfl⟩
      · obtain ⟨m2, hm2, hp⟩ := ih x hx
        exact ⟨m2, List.mem_cons_of_mem _ hm2, hp⟩

theorem mem_scanCondIdents_defProj (loc : Nat) :
    ∀ (ids : List String) (b : Bool) (ms : List ConditionMacro) (x : ConditionMacro),
      x ∈ scanCondIdents loc ids b ms → ∃ m, m ∈ ms ∧ defProj x = defProj m := by
  intro ids
  induction ids with
  | nil => intro b ms x hx; exact ⟨x, hx, rfl⟩
  | cons n rest ih =>
    intro b ms x hx
    unfold scanCondIdents at hx
    by_cases h : n = "defined"
    · rw [if_pos h] at hx
      exact ih true ms x hx
    · rw [if_neg h] at hx
      cases b with
      | true => exact ih false ms x hx
      | false =>
        obtain ⟨m2, hm2, hp2⟩ := ih false (markValueUsed n loc ms) x hx
        obtain ⟨m3, hm3, hp3⟩ := mem_markValueUsed_defProj n loc ms m2 hm2
        exact ⟨m3, hm3, hp2.trans hp3⟩

theorem diagLoc_step (D T : List Nat) (e : PPEvent) (ms : List ConditionMacro)
    (hms : ∀ m ∈ ms, m.defLoc ∈ D ∧ ∀ l ∈ m.definedCheckedLocs, l ∈ T)
    (hD : ∀ l, trackableDefineLoc e = some l → l ∈ D)
    (hT : ∀ l, anyTestLoc e = some l → l ∈ T) :
    ∀ m ∈ stepEvent ms e, m.defLoc ∈ D ∧ ∀ l ∈ m.definedCheckedLocs, l ∈ T := by
  cases e with
  | macroDefined n dl hf fl bi tc =>
    cases hf with
    | false => exact hms
    | true =>
      cases fl with
      | true => exact hms
      | false =>
        cases bi with
        | true => exact hms
        | false =>
          intro x hx
          rcases List.mem_append.mp hx with hx | hx
          · exact hms x hx
          · rw [List.mem_singleton.mp hx]
            exact ⟨hD dl rfl, fun l hl => absurd hl (List.not_mem_nil l)⟩
  | definedOp n l =>
    intro x hx
    rcases mem_markDefinedChecked n l ms x hx with hx | ⟨m, hm, rfl⟩
    · exact hms x hx
    · refine ⟨(hms m hm).1, ?_⟩
      intro l2 hl2
      rcases List.mem_append.mp hl2 with hl2 | hl2
      · exact (hms m hm).2 l2 hl2
      · rw [List.mem_singleton.mp hl2]
        exact hT l rfl
  | ifdefDir n l =>
    intro x hx
    rcases mem_markDefinedChecked n l ms x hx with hx | ⟨m, hm, rfl⟩
    · exact hms x hx
    · refine ⟨(hms m hm).1, ?_⟩
      intro l2 hl2
      rcases List.mem_append.mp hl2 with hl2 | hl2
      · exact (hms m hm).2 l2 hl2
      · rw [List.mem_singleton.mp hl2]
        exact hT l rfl
  | ifndefDir n l =>
    intro x hx
    rcases mem_markDefinedChecked n l ms x hx with hx | ⟨m, hm, rfl⟩
    · exact hms x hx
    · refine ⟨(hms m hm).1, ?_⟩
      intro l2 hl2
      rcases List.mem_append.mp hl2 with hl2 | hl2
      · exact (hms m hm).2 l2 hl2
      · rw [List.mem_singleton.mp hl2]
        exact hT l rfl
  | elifdefDir n l =>
    intro x hx
    rcases mem_markDefinedChecked n l ms x hx with hx | ⟨m, hm, rfl⟩
    · exact hms x hx
    · refine ⟨(hms m hm).1, ?_⟩
      intro l2 hl2
      rcases List.mem_append.mp hl2 with hl2 | hl2
      · exact (hms m hm).2 l2 hl2
      · rw [List.mem_singleton.mp hl2]
        exact hT l rfl
  | elifndefDir n l =>
    intro x hx
    rcases mem_markDefinedChecked n l ms x hx with hx | ⟨m, hm, rfl⟩
    · exact hms x hx
    · refine ⟨(hms m hm).1, ?_⟩
      intro l2 hl2
      rcases List.mem_append.mp hl2 with hl2 | hl2
      · exact (hms m hm).2 l2 hl2
      · rw [List.mem_singleton.mp hl2]
        exact hT l rfl
  | ifDir l ids =>
    intro x hx
    obtain ⟨m, hm, hp⟩ := mem_scanCondIdents_defProj l ids false ms x hx
    have h1 : x.defLoc = m.defLoc := congrArg DefView.defLoc hp
    have h2 : x.definedCheckedLocs = m.definedCheckedLocs :=
      congrArg DefView.definedCheckedLocs hp
    rw [h1, h2]
    exact hms m hm
  | elifDir l => exact hms
  | elifdefRange l => exact hms
  | elifndefRange l => exact hms
  | elseDir l => exact hms
  | endifDir l => exact hms

theorem diagLoc_fold (D T : List Nat) :
    ∀ (evs : List PPEvent) (ms : List ConditionMacro),
      (∀ m ∈ ms, m.defLoc ∈ D ∧ ∀ l ∈ m.definedCheckedLocs, l ∈ T) →
      (∀ e ∈ evs, (∀ l, trackableDefineLoc e = some l → l ∈ D) ∧
        (∀ l, anyTestLoc e = some l → l ∈ T)) →
      ∀ m ∈ evs.foldl stepEvent ms, m.defLoc ∈ D ∧ ∀ l ∈ m.definedCheckedLocs, l ∈ T := by
  intro evs
  induction evs with
  | nil => intro ms hms _; exact hms
  | cons e evs ih =>
    intro ms hms hevs
    rw [List.foldl_cons]
    refine ih (stepEvent ms e) ?_ (fun x hx => hevs x (List.mem_cons_of_mem _ hx))
    exact diagLoc_step D T e ms hms
      (hevs e (List.mem_cons_self _ _)).1 (hevs e (List.mem_cons_self _ _)).2

theorem mem_macroDiags_loc (m : ConditionMacro) (d : Diagnostic)
    (hd : d ∈ macroDiags m) :
    d.loc = m.defLoc ∨ d.loc ∈ m.definedCheckedLocs := by
  unfold macroDiags at hd
  split at hd
  · rcases List.mem_cons.mp hd with h | h
    · rw [h]
      exact Or.inl rfl
    · obtain ⟨l, hl, rfl⟩ := List.mem_map.mp h
      exact Or.inr hl
  · exact absurd hd (List.not_mem_nil d)

/-- Claim C1: for a macro defined once in the main file with a non-empty
replacement (not function-like, not builtin) whose definedness is
subsequently tested at least once, the end-of-main-file pass emits
exactly one diagnostic at the definition location plus exactly one
diagnostic at each definedness-test location, and no other diagnostics
for that macro. -/
theorem claim_C1 (M : String) (loc tokenCount : Nat) (evs1 evs2 : List PPEvent)
    (h1 : ∀ e ∈ evs1, isTrackableDefineOf M e = false)
    (h2 : ∀ e ∈ evs2, isTrackableDefineOf M e = false)
    (htc : tokenCount ≠ 0)
    (hts : testLocsFor M evs2 ≠ []) :
    (runTracker (evs1 ++ PPEvent.macroDefined M loc true false false tokenCount :: evs2)).filter
        (fun d => d.macroName == M) =
      ⟨loc, .definedWithValueAndChecked, M⟩ ::
        (testLocsFor M evs2).map (fun l => ⟨l, .checkedHereForDefinition, M⟩) := by
  unfold runTracker processEvents
  rw [List.foldl_append, List.foldl_cons, filter_endOfMainFile]
  have hnil : mviews M (evs1.foldl stepEvent []) = [] := by
    rw [mviews_fold_noDefine M evs1 [] h1]
    rfl
  have hdc : decide (tokenCount = 0) = false := by simpa using htc
  have hdef : mviews M (stepEvent (evs1.foldl stepEvent [])
      (.macroDefined M loc true false false tokenCount)) =
      [⟨M, loc, false, false, []⟩] := by
    show mviews M ((evs1.foldl stepEvent []) ++
      [⟨M, loc, decide (tokenCount = 0), false, [], false, []⟩]) = _
    rw [mviews_define_same, hnil, List.nil_append, hdc]
  rw [mviews_fold_noDefine M evs2 _ h2, hdef]
  have hne : (testLocsFor M evs2).isEmpty = false := by
    cases h : testLocsFor M evs2 with
    | nil => exact absurd h hts
    | cons a as => rfl
  simp [bulkTests, viewDiags, hne]

theorem claim_C1_witness :
    (runTracker ([] ++ PPEvent.macroDefined "USE_FOO" 3 true false false 1 ::
        [PPEvent.ifdefDir "USE_FOO" 24])).filter
        (fun d => d.macroName == "USE_FOO") =
      ⟨3, .definedWithValueAndChecked, "USE_FOO"⟩ ::
        (testLocsFor "USE_FOO" [PPEvent.ifdefDir "USE_FOO" 24]).map
          (fun l => ⟨l, .checkedHereForDefinition, "USE_FOO"⟩) :=
  claim_C1 "USE_FOO" 3 1 [] [PPEvent.ifdefDir "USE_FOO" 24]
    (by decide) (by decide) (by decide) (by decide)

/-- Claim C2, counterexample: the claim keys zero-diagnostics on the
LATEST defined state.  Here the latest definition of `M` is empty
(`tokenCount = 0`), yet two diagnostics are emitted, because tests attach
to the FIRST record (`llvm::find_if`) and each `MacroDefined` appends a
fresh record, so the first, non-empty record still fires. -/
theorem claim_C2_counterexample :
    runTracker [PPEvent.macroDefined "M" 10 true false false 1,
                PPEvent.macroDefined "M" 20 true false false 0,
                PPEvent.ifdefDir "M" 30] =
      [⟨10, .definedWithValueAndChecked, "M"⟩,
       ⟨30, .checkedHereForDefinition, "M"⟩] ∧
    runTracker [PPEvent.macroDefined "M" 10 true false false 1,
                PPEvent.macroDefined "M" 20 true false false 0,
                PPEvent.ifdefDir "M" 30] ≠ [] := by
  constructor
  · decide
  · decide

/-- Claim C2 as amended: zero diagnostics are guaranteed when the FIRST
trackable definition of the macro is judged, not the latest defined
state: a macro never trackably defined gets no diagnostics; and a macro
whose first trackable definition has an empty replacement list gets no
diagnostics regardless of later definitions and of how often its
definedness or value is tested. -/
theorem claim_C2_amended :
    (∀ (M : String) (evs : List PPEvent),
      (∀ e ∈ evs, isTrackableDefineOf M e = false) →
      (runTracker evs).filter (fun d => d.macroName == M) = []) ∧
    (∀ (M : String) (loc : Nat) (evs1 evs2 : List PPEvent),
      (∀ e ∈ evs1, isTrackableDefineOf M e = false) →
      (runTracker (evs1 ++ PPEvent.macroDefined M loc true false false 0 :: evs2)).filter
        (fun d => d.macroName == M) = []) := by
  constructor
  · intro M evs h
    unfold runTracker processEvents
    rw [filter_endOfMainFile, mviews_fold_noDefine M evs [] h]
    rfl
  · intro M loc evs1 evs2 h1
    unfold runTracker processEvents
    rw [List.foldl_append, List.foldl_cons, filter_endOfMainFile]
    have hnil : mviews M (evs1.foldl stepEvent []) = [] := by
      rw [mviews_fold_noDefine M evs1 [] h1]
      rfl
    have hdef : mviews M (stepEvent (evs1.foldl stepEvent [])
        (.macroDefined M loc true false false 0)) =
        [⟨M, loc, decide ((0 : Nat) = 0), false, []⟩] := by
      show mviews M ((evs1.foldl stepEvent []) ++
        [⟨M, loc, decide ((0 : Nat) = 0), false, [], false, []⟩]) = _
      rw [mviews_define_same, hnil, List.nil_append]
    have hini : mviews M (stepEvent (evs1.foldl stepEvent [])
        (.macroDefined M loc true false false 0)) ≠ [] := by
      rw [hdef]
      exact List.cons_ne_nil _ _
    have hsil : SilentRun (mviews M (stepEvent (evs1.foldl stepEvent [])
        (.macroDefined M loc true false false 0))) := by
      rw [hdef]
      refine ⟨?_, ?_⟩
      · rfl
      · intro w hw
        exact absurd hw (List.not_mem_nil w)
    obtain ⟨_, hsil2⟩ := silentRun_fold M evs2 _ hini hsil
    exact silentRun_flatMap _ hsil2

theorem claim_C2_amended_witness :
    (runTracker ([] ++ PPEvent.macroDefined "Q" 4 true false false 0 ::
        [PPEvent.ifdefDir "Q" 7])).filter (fun d => d.macroName == "Q") = [] :=
  claim_C2_amended.2 "Q" 4 [] [PPEvent.ifdefDir "Q" 7] (by decide)

/-- Claim C3: the event sequence of the USE_GRONK test-fixture region
(`#define USE_GRONK 0`, `#ifdef USE_GRONK`, nested `#if USE_GRONK`,
two `#endif`s).  The fixture expects zero diagnostics, but the code
emits two: `EndOfMainFile` only tests `!DefinedOnly && DefinedChecked`
and never consults `ValueUsed`, so the `#ifdef` makes the macro fire. -/
theorem claim_C3 :
    runTracker [PPEvent.macroDefined "USE_GRONK" 150 true false false 1,
                PPEvent.ifdefDir "USE_GRONK" 151,
                PPEvent.ifDir 152 ["USE_GRONK"],
                PPEvent.endifDir 158,
                PPEvent.endifDir 159] =
      [⟨150, .definedWithValueAndChecked, "USE_GRONK"⟩,
       ⟨151, .checkedHereForDefinition, "USE_GRONK"⟩] := by decide

/-- Claim C4, counterexample: the claim says the tested-flags are reset
at each sibling transition, so after `#define M 1`, `#ifdef M`, `#else`
the definedness-checked flag of `M` would have to be `false`; in the
code `Else` only prints and the flag stays `true`. -/
theorem claim_C4_counterexample :
    ¬ ((processEvents [PPEvent.macroDefined "M" 10 true false false 1,
                       PPEvent.ifdefDir "M" 20,
                       PPEvent.elseDir 30]).map (fun m => m.definedChecked) =
        [false]) := by decide

/-- Claim C4 as amended: the tracker keeps NO per-branch scope
bookkeeping — `Else`, `Endif` and the range-form `Elif`/`Elifdef`/
`Elifndef` callbacks leave the tracker state unchanged, so a definedness
test inside one branch stays recorded to end of file; nevertheless every
diagnostic is located either at a trackable definition location or at a
recorded definedness-test location, so no diagnostic is ever attributed
to a sibling branch or to the region after the `#endif` itself. -/
theorem claim_C4_amended :
    (∀ (ms : List ConditionMacro) (l : Nat), stepEvent ms (.elseDir l) = ms) ∧
    (∀ (ms : List ConditionMacro) (l : Nat), stepEvent ms (.endifDir l) = ms) ∧
    (∀ (ms : List ConditionMacro) (l : Nat), stepEvent ms (.elifDir l) = ms ∧
      stepEvent ms (.elifdefRange l) = ms ∧ stepEvent ms (.elifndefRange l) = ms) ∧
    (∀ (evs : List PPEvent) (d : Diagnostic), d ∈ runTracker evs →
      d.loc ∈ evs.filterMap trackableDefineLoc ∨ d.loc ∈ evs.filterMap anyTestLoc) := by
  refine ⟨fun ms l => rfl, fun ms l => rfl, fun ms l => ⟨rfl, rfl, rfl⟩, ?_⟩
  intro evs d hd
  unfold runTracker processEvents endOfMainFile at hd
  obtain ⟨m, hm, hdm⟩ := List.mem_flatMap.mp hd
  have hevs : ∀ e ∈ evs,
      (∀ l, trackableDefineLoc e = some l → l ∈ evs.filterMap trackableDefineLoc) ∧
      (∀ l, anyTestLoc e = some l → l ∈ evs.filterMap anyTestLoc) := by
    intro e he
    exact ⟨fun l hl => List.mem_filterMap.mpr ⟨e, he, hl⟩,
           fun l hl => List.mem_filterMap.mpr ⟨e, he, hl⟩⟩
  have hfold := diagLoc_fold (evs.filterMap trackableDefineLoc)
    (evs.filterMap anyTestLoc) evs []
    (fun x hx => absurd hx (List.not_mem_nil x)) hevs m hm
  rcases mem_macroDiags_loc m d hdm with h | h
  · rw [h]
    exact Or.inl hfold.1
  · exact Or.inr (hfold.2 d.loc h)

theorem claim_C4_amended_witness :
    stepEvent [] (.elseDir 5) = [] ∧
    ((⟨3, .definedWithValueAndChecked, "A"⟩ : Diagnostic).loc ∈
        ([PPEvent.macroDefined "A" 3 true false false 1,
          PPEvent.ifdefDir "A" 7]).filterMap trackableDefineLoc ∨
      (⟨3, .definedWithValueAndChecked, "A"⟩ : Diagnostic).loc ∈
        ([PPEvent.macroDefined "A" 3 true false false 1,
          PPEvent.ifdefDir "A" 7]).filterMap anyTestLoc) :=
  ⟨claim_C4_amended.1 [] 5,
   claim_C4_amended.2.2.2
     [PPEvent.macroDefined "A" 3 true false false 1, PPEvent.ifdefDir "A" 7]
     ⟨3, .definedWithValueAndChecked, "A"⟩ (by decide)⟩

/-- Claim C5, counterexample: a definedness test of `M` before any
definition, followed by a non-empty definition of `M`, yields NO
diagnostics — the claim asserts a diagnostic at the later definition
location (10) and at the earlier test location (5).  The `Defined`
callback only updates an existing record and never creates one, so the
early test is dropped entirely. -/
theorem claim_C5_counterexample :
    runTracker [PPEvent.definedOp "M" 5,
                PPEvent.macroDefined "M" 10 true false false 1] = [] := by decide

/-- Claim C5 as amended: a definedness test seen while no record of that
name exists is a complete no-op (no record is created, nothing is
retained), so a later definition cannot retroactively make it
contradictory; the whole run behaves as if the early test were absent. -/
theorem claim_C5_amended (M : String) (l : Nat) (evs1 evs2 : List PPEvent)
    (h : ∀ m ∈ processEvents evs1, m.name ≠ M) :
    runTracker (evs1 ++ PPEvent.definedOp M l :: evs2) =
      runTracker (evs1 ++ evs2) := by
  unfold runTracker processEvents
  rw [List.foldl_append, List.foldl_cons, List.foldl_append]
  congr 1
  show List.foldl stepEvent (markDefinedChecked M l (List.foldl stepEvent [] evs1)) evs2 = _
  rw [markDefinedChecked_of_not_found M l (List.foldl stepEvent [] evs1) h]

theorem claim_C5_amended_witness :
    runTracker ([] ++ PPEvent.definedOp "X" 5 :: [PPEvent.endifDir 9]) =
      runTracker ([] ++ [PPEvent.endifDir 9]) :=
  claim_C5_amended "X" 5 [] [PPEvent.endifDir 9] (by decide)

/-- Claim C9: the diagnostics are independent of value-test events:
deleting every `If`-condition value-reference scan from the event stream
leaves the diagnostic list unchanged (so two streams differing only in
such events produce identical diagnostics), and `macroDiags` does not
read `ValueUsed`/`ValueUsedLocs` at all. -/
theorem claim_C9 :
    (∀ evs : List PPEvent,
      runTracker evs = runTracker (evs.filter (fun e => !isValueRefEvent e))) ∧
    (∀ (m : ConditionMacro) (vu : Bool) (vl : List Nat),
      macroDiags { m with valueUsed := vu, valueUsedLocs := vl } = macroDiags m) := by
  constructor
  · intro evs
    unfold runTracker processEvents
    rw [endOfMainFile_views, endOfMainFile_views, allViews_fold, allViews_fold,
        foldView_filter_valueRef]
  · intro m vu vl
    rfl

end MacroCondition

/-!
## Lemmas about the matcher
-/

namespace MacroToFunction

theorem spanOK_empty (tokens : List Tok) (allowed : List String) (lo hi : Nat)
    (h : hi ≤ lo) : SpanOK tokens allowed lo hi := by
  intro i n h1 h2 _
  omega

theorem spanOK_trans (tokens : List Tok) (allowed : List String) (a b c : Nat)
    (h1 : SpanOK tokens allowed a b) (h2 : SpanOK tokens allowed b c) :
    SpanOK tokens allowed a c := by
  intro i n hai hic hget
  by_cases hib : i < b
  · exact h1 i n hai hib hget
  · exact h2 i n (by omega) hic hget

theorem spanOK_single_not_ident (tokens : List Tok) (allowed : List String)
    (lo : Nat) (h : ∀ n, tokens.get? lo ≠ some (Tok.ident n)) :
    SpanOK tokens allowed lo (lo + 1) := by
  intro i n h1 h2 hget
  have : i = lo := by omega
  subst this
  exact absurd hget (h n)

theorem spanOK_single_allowed (tokens : List Tok) (allowed : List String)
    (lo : Nat) (n : String) (hget : tokens.get? lo = some (Tok.ident n))
    (hall : allowed.contains n = true) :
    SpanOK tokens allowed lo (lo + 1) := by
  intro i m h1 h2 hget2
  have : i = lo := by omega
  subst this
  rw [hget] at hget2
  have : n = m := by
    have := Option.some.inj hget2
    exact Tok.ident.inj this
  rw [← this]
  exact hall

theorem peek_lt (tokens : List Tok) (pos : Nat) (h : pos < tokens.length) :
    ∃ t, peek tokens pos = some t := by
  unfold peek
  exact ⟨tokens.get ⟨pos, h⟩, List.get?_eq_get h⟩

theorem isUnaryOp_not_ident (t : Tok) (h : t.isUnaryOp = true) :
    ∀ n, t ≠ Tok.ident n := by
  intro n hc
  subst hc
  simp [Tok.isUnaryOp] at h

theorem unaryOperator_spec (tokens : List Tok) (allowed : List String)
    (pos : Nat) (h : pos < tokens.length) :
    ∃ b p, unaryOperator tokens pos = some (b, p) ∧ pos ≤ p ∧
      p ≤ tokens.length ∧
      (b = true → p < tokens.length ∧ SpanOK tokens allowed pos p) := by
  obtain ⟨t, ht⟩ := peek_lt tokens pos h
  have hval : unaryOperator tokens pos =
      (if t.isUnaryOp = true then some (decide (pos + 1 ≠ tokens.length), pos + 1)
       else some (true, pos)) := by
    unfold unaryOperator
    rw [ht]
  cases hk : t.isUnaryOp with
  | false =>
    rw [if_neg (by simp [hk])] at hval
    exact ⟨true, pos, hval, le_refl _, h.le,
      fun _ => ⟨h, spanOK_empty tokens allowed pos pos (le_refl _)⟩⟩
  | true =>
    rw [if_pos hk] at hval
    refine ⟨decide (pos + 1 ≠ tokens.length), pos + 1, hval, by omega, by omega, ?_⟩
    intro hb
    have hne : pos + 1 ≠ tokens.length := of_decide_eq_true hb
    refine ⟨by omega, ?_⟩
    apply spanOK_single_not_ident
    intro n hc
    have ht2 : tokens.get? pos = some t := ht
    have : t = Tok.ident n := by
      rw [ht2] at hc
      exact Option.some.inj hc
    exact absurd rfl (this ▸ isUnaryOp_not_ident t hk n)

theorem isAnyIdentifier_shape (t : Tok) (h : t.isAnyIdentifier = true) :
    ∃ n, t = Tok.ident n := by
  cases t <;> simp [Tok.isAnyIdentifier] at h ⊢

theorem unaryExprF_spec (tokens : List Tok) (allowed : List String)
    (exprF : Nat → Option (Bool × Nat)) (lo : Nat)
    (hF : ExprHyp tokens allowed exprF lo) :
    LevelSpec tokens allowed (unaryExprF tokens allowed exprF) lo := by
  intro pos hlo hpos
  obtain ⟨b0, p0, hu, hup, hple, hb0⟩ := unaryOperator_spec tokens allowed pos hpos
  cases b0 with
  | false =>
    refine ⟨false, p0, ?_, hup, hple, fun hc => nomatch hc⟩
    simp [unaryExprF, hu]
  | true =>
    obtain ⟨hp0, hspan0⟩ := hb0 rfl
    obtain ⟨t1, ht1⟩ := peek_lt tokens p0 hp0
    have ht1g : tokens.get? p0 = some t1 := ht1
    by_cases hlp : t1 = Tok.lparen
    · have hlpspan : SpanOK tokens allowed p0 (p0 + 1) := by
        apply spanOK_single_not_ident
        intro n hc
        rw [ht1g, hlp] at hc
        exact absurd (Option.some.inj hc) (by simp)
      by_cases hend1 : p0 + 1 = tokens.length
      · refine ⟨false, p0 + 1, ?_, by omega, by omega, fun hc => nomatch hc⟩
        simp [unaryExprF, consume, hu, ht1, hlp, hend1]
      · have hp1 : p0 + 1 < tokens.length := by omega
        obtain ⟨e, p2, hexp, hep, hele, heb⟩ :=
          hF (p0 + 1) (by omega) hp1
        cases e with
        | false =>
          refine ⟨false, p2, ?_, by omega, hele, fun hc => nomatch hc⟩
          simp [unaryExprF, consume, hu, ht1, hlp, hend1, hexp]
        | true =>
          obtain ⟨hp2gt, hspan2⟩ := heb rfl
          by_cases hend2 : p2 = tokens.length
          · refine ⟨false, p2, ?_, by omega, hele, fun hc => nomatch hc⟩
            simp [unaryExprF, consume, hu, ht1, hlp, hend1, hexp, hend2]
          · have hp2 : p2 < tokens.length := by omega
            obtain ⟨t3, ht3⟩ := peek_lt tokens p2 hp2
            have ht3g : tokens.get? p2 = some t3 := ht3
            by_cases hrp : t3 = Tok.rparen
            · refine ⟨true, p2 + 1, ?_, by omega, by omega, ?_⟩
              · simp [unaryExprF, consume, hu, ht1, hlp, hend1, hexp, hend2, ht3, hrp]
              · intro _
                refine ⟨by omega, ?_⟩
                have hrpspan : SpanOK tokens allowed p2 (p2 + 1) := by
                  apply spanOK_single_not_ident
                  intro n hc
                  rw [ht3g, hrp] at hc
                  exact absurd (Option.some.inj hc) (by simp)
                exact spanOK_trans tokens allowed pos p0 (p2 + 1) hspan0
                  (spanOK_trans tokens allowed p0 (p0 + 1) (p2 + 1) hlpspan
                    (spanOK_trans tokens allowed (p0 + 1) p2 (p2 + 1) hspan2 hrpspan))
            · refine ⟨false, p2, ?_, by omega, hele, fun hc => nomatch hc⟩
              simp [unaryExprF, consume, hu, ht1, hlp, hend1, hexp, hend2, ht3, hrp]
    · cases hisl : t1.isLiteral with
      | true =>
        refine ⟨true, p0 + 1, ?_, by omega, by omega, ?_⟩
        · simp [unaryExprF, consume, hu, ht1, hlp, hisl]
        · intro _
          refine ⟨by omega, ?_⟩
          refine spanOK_trans tokens allowed pos p0 (p0 + 1) hspan0 ?_
          apply spanOK_single_not_ident
          intro n hc
          rw [ht1g] at hc
          rw [Option.some.inj hc] at hisl
          exact absurd hisl (by simp [Tok.isLiteral])
      | false =>
        cases hisid : t1.isAnyIdentifier with
        | true =>
          obtain ⟨n, rfl⟩ := isAnyIdentifier_shape t1 hisid
          cases hc : allowed.contains n with
          | true =>
            have hcm : n ∈ allowed := by simpa using hc
            refine ⟨true, p0 + 1, ?_, by omega, by omega, ?_⟩
            · simp [unaryExprF, consume, hu, ht1, hlp, hisl, hisid, getTokenName, hcm]
            · intro _
              refine ⟨by omega, ?_⟩
              refine spanOK_trans tokens allowed pos p0 (p0 + 1) hspan0 ?_
              exact spanOK_single_allowed tokens allowed p0 n ht1g hc
          | false =>
            have hcm : n ∉ allowed := by simpa using hc
            refine ⟨false, p0, ?_, hup, hp0.le, fun hcc => nomatch hcc⟩
            simp [unaryExprF, consume, hu, ht1, hlp, hisl, hisid, getTokenName, hcm]
        | false =>
          refine ⟨false, p0, ?_, hup, hp0.le, fun hcc => nomatch hcc⟩
          simp [unaryExprF, consume, hu, ht1, hlp, hisl, hisid]

theorem chainLoop_spec (tokens : List Tok) (allowed : List String)
    (sub : Nat → Option (Bool × Nat)) (isKind : Tok → Bool) (lo : Nat)
    (hSub : LevelSpec tokens allowed sub lo)
    (hK : ∀ s, isKind (Tok.ident s) = false) :
    ∀ fuel pos, lo ≤ pos → pos ≤ tokens.length → tokens.length - pos < fuel →
      ∃ b p, chainLoop tokens sub isKind fuel pos = some (b, p) ∧ pos ≤ p ∧
        p ≤ tokens.length ∧ (b = true → SpanOK tokens allowed pos p) := by
  intro fuel
  induction fuel with
  | zero =>
    intro pos _ _ hf
    omega
  | succ fuel ih =>
    intro pos hlo hle hf
    by_cases hend : pos = tokens.length
    · refine ⟨true, pos, ?_, le_refl _, hle,
        fun _ => spanOK_empty _ _ _ _ (le_refl _)⟩
      simp [chainLoop, hend]
    · have hpos : pos < tokens.length := by omega
      obtain ⟨t, ht⟩ := peek_lt tokens pos hpos
      have htg : tokens.get? pos = some t := ht
      cases hk : isKind t with
      | false =>
        refine ⟨true, pos, ?_, le_refl _, hle,
          fun _ => spanOK_empty _ _ _ _ (le_refl _)⟩
        simp [chainLoop, hend, ht, hk]
      | true =>
        by_cases hend1 : pos + 1 = tokens.length
        · refine ⟨false, pos + 1, ?_, by omega, by omega, fun hc => nomatch hc⟩
          simp [chainLoop, hend, ht, hk, hend1]
        · have hp1 : pos + 1 < tokens.length := by omega
          obtain ⟨b1, p1, hsub1, h1a, h1b, h1c⟩ := hSub (pos + 1) (by omega) hp1
          cases b1 with
          | false =>
            refine ⟨false, p1, ?_, by omega, h1b, fun hc => nomatch hc⟩
            simp [chainLoop, hend, ht, hk, hend1, hsub1]
          | true =>
            obtain ⟨hp1lt, hspan1⟩ := h1c rfl
            obtain ⟨b2, p2, hloop, h2a, h2b, h2c⟩ := ih p1 (by omega) h1b (by omega)
            refine ⟨b2, p2, ?_, by omega, h2b, ?_⟩
            · simp [chainLoop, hend, ht, hk, hend1, hsub1, hloop]
            · intro hb
              have hopspan : SpanOK tokens allowed pos (pos + 1) := by
                apply spanOK_single_not_ident
                intro n hc
                rw [htg] at hc
                rw [Option.some.inj hc] at hk
                rw [hK n] at hk
                exact nomatch hk
              exact spanOK_trans _ _ pos (pos + 1) p2 hopspan
                (spanOK_trans _ _ (pos + 1) p1 p2 hspan1 (h2c hb))

theorem nonTerminalChainedExpr_spec (tokens : List Tok) (allowed : List String)
    (sub : Nat → Option (Bool × Nat)) (isKind : Tok → Bool) (lo : Nat)
    (hSub : LevelSpec tokens allowed sub lo)
    (hK : ∀ s, isKind (Tok.ident s) = false) :
    LevelSpec tokens allowed (nonTerminalChainedExpr tokens sub isKind) lo := by
  intro pos hlo hpos
  obtain ⟨b0, p0, hsub0, h0a, h0b, h0c⟩ := hSub pos hlo hpos
  cases b0 with
  | false =>
    refine ⟨false, p0, ?_, h0a, h0b, fun hc => nomatch hc⟩
    simp [nonTerminalChainedExpr, hsub0]
  | true =>
    obtain ⟨hp0, hspan0⟩ := h0c rfl
    by_cases hend : p0 = tokens.length
    · refine ⟨true, p0, ?_, h0a, h0b, fun _ => ⟨hp0, hspan0⟩⟩
      simp [nonTerminalChainedExpr, hsub0, hend]
    · obtain ⟨b2, p2, hloop, h2a, h2b, h2c⟩ :=
        chainLoop_spec tokens allowed sub isKind lo hSub hK
          (tokens.length + 1) p0 (by omega) h0b (by omega)
      refine ⟨b2, p2, ?_, by omega, h2b, ?_⟩
      · simp [nonTerminalChainedExpr, hsub0, hend, hloop]
      · intro hb
        exact ⟨by omega, spanOK_trans _ _ pos p0 p2 hspan0 (h2c hb)⟩

theorem multiplicativeExprF_spec (tokens : List Tok) (allowed : List String)
    (exprF : Nat → Option (Bool × Nat)) (lo : Nat)
    (hF : ExprHyp tokens allowed exprF lo) :
    LevelSpec tokens allowed (multiplicativeExprF tokens allowed exprF) lo :=
  nonTerminalChainedExpr_spec tokens allowed _ isMulOp lo
    (unaryExprF_spec tokens allowed exprF lo hF) (fun _ => rfl)

theorem additiveExprF_spec (tokens : List Tok) (allowed : List String)
    (exprF : Nat → Option (Bool × Nat)) (lo : Nat)
    (hF : ExprHyp tokens allowed exprF lo) :
    LevelSpec tokens allowed (additiveExprF tokens allowed exprF) lo :=
  nonTerminalChainedExpr_spec tokens allowed _ isAddOp lo
    (multiplicativeExprF_spec tokens allowed exprF lo hF) (fun _ => rfl)

theorem shiftExprF_spec (tokens : List Tok) (allowed : List String)
    (exprF : Nat → Option (Bool × Nat)) (lo : Nat)
    (hF : ExprHyp tokens allowed exprF lo) :
    LevelSpec tokens allowed (shiftExprF tokens allowed exprF) lo :=
  nonTerminalChainedExpr_spec tokens allowed _ isShiftOp lo
    (additiveExprF_spec tokens allowed exprF lo hF) (fun _ => rfl)

theorem compareExprF_spec (tokens : List Tok) (allowed : List String)
    (exprF : Nat → Option (Bool × Nat)) (lo : Nat)
    (hF : ExprHyp tokens allowed exprF lo) :
    LevelSpec tokens allowed (compareExprF tokens allowed exprF) lo := by
  intro pos hlo hpos
  have hShift := shiftExprF_spec tokens allowed exprF lo hF
  obtain ⟨b0, p0, h0, h0a, h0b, h0c⟩ := hShift pos hlo hpos
  cases b0 with
  | false =>
    refine ⟨false, p0, ?_, h0a, h0b, fun hc => nomatch hc⟩
    simp [compareExprF, h0]
  | true =>
    obtain ⟨hp0, hspan0⟩ := h0c rfl
    by_cases hend : p0 = tokens.length
    · refine ⟨true, p0, ?_, h0a, h0b, fun _ => ⟨hp0, hspan0⟩⟩
      simp [compareExprF, h0, hend]
    · have hp0lt : p0 < tokens.length := by omega
      obtain ⟨t, ht⟩ := peek_lt tokens p0 hp0lt
      have htg : tokens.get? p0 = some t := ht
      by_cases hsp : t = Tok.spaceship
      · by_cases hend1 : p0 + 1 = tokens.length
        · refine ⟨false, p0 + 1, ?_, by omega, by omega, fun hc => nomatch hc⟩
          simp [compareExprF, h0, hend, ht, hsp, hend1]
        · obtain ⟨b2, p2, h2, h2a, h2b, h2c⟩ := hShift (p0 + 1) (by omega) (by omega)
          cases b2 with
          | false =>
            refine ⟨false, p2, ?_, by omega, h2b, fun hc => nomatch hc⟩
            simp [compareExprF, h0, hend, ht, hsp, hend1, h2]
          | true =>
            obtain ⟨hp2, hspan2⟩ := h2c rfl
            refine ⟨true, p2, ?_, by omega, h2b, ?_⟩
            · simp [compareExprF, h0, hend, ht, hsp, hend1, h2]
            · intro _
              refine ⟨by omega, ?_⟩
              have hspspan : SpanOK tokens allowed p0 (p0 + 1) := by
                apply spanOK_single_not_ident
                intro n hc
                rw [htg] at hc
                have h3 := Option.some.inj hc
                rw [hsp] at h3
                exact nomatch h3
              exact spanOK_trans _ _ pos p0 p2 hspan0
                (spanOK_trans _ _ p0 (p0 + 1) p2 hspspan hspan2)
      · refine ⟨true, p0, ?_, h0a, h0b, fun _ => ⟨hp0, hspan0⟩⟩
        simp [compareExprF, h0, hend, ht, hsp]

theorem relationalExprF_spec (tokens : List Tok) (allowed : List String)
    (exprF : Nat → Option (Bool × Nat)) (lo : Nat)
    (hF : ExprHyp tokens allowed exprF lo) :
    LevelSpec tokens allowed (relationalExprF tokens allowed exprF) lo :=
  nonTerminalChainedExpr_spec tokens allowed _ isRelOp lo
    (compareExprF_spec tokens allowed exprF lo hF) (fun _ => rfl)

theorem equalityExprF_spec (tokens : List Tok) (allowed : List String)
    (exprF : Nat → Option (Bool × Nat)) (lo : Nat)
    (hF : ExprHyp tokens allowed exprF lo) :
    LevelSpec tokens allowed (equalityExprF tokens allowed exprF) lo :=
  nonTerminalChainedExpr_spec tokens allowed _ isEqOp lo
    (relationalExprF_spec tokens allowed exprF lo hF) (fun _ => rfl)

theorem andExprF_spec (tokens : List Tok) (allowed : List String)
    (exprF : Nat → Option (Bool × Nat)) (lo : Nat)
    (hF : ExprHyp tokens allowed exprF lo) :
    LevelSpec tokens allowed (andExprF tokens allowed exprF) lo :=
  nonTerminalChainedExpr_spec tokens allowed _ isAndOp lo
    (equalityExprF_spec tokens allowed exprF lo hF) (fun _ => rfl)

theorem exclusiveOrExprF_spec (tokens : List Tok) (allowed : List String)
    (exprF : Nat → Option (Bool × Nat)) (lo : Nat)
    (hF : ExprHyp tokens allowed exprF lo) :
    LevelSpec tokens allowed (exclusiveOrExprF tokens allowed exprF) lo :=
  nonTerminalChainedExpr_spec tokens allowed _ isXorOp lo
    (andExprF_spec tokens allowed exprF lo hF) (fun _ => rfl)

theorem inclusiveOrExprF_spec (tokens : List Tok) (allowed : List String)
    (exprF : Nat → Option (Bool × Nat)) (lo : Nat)
    (hF : ExprHyp tokens allowed exprF lo) :
    LevelSpec tokens allowed (inclusiveOrExprF tokens allowed exprF) lo :=
  nonTerminalChainedExpr_spec tokens allowed _ isOrOp lo
    (exclusiveOrExprF_spec tokens allowed exprF lo hF) (fun _ => rfl)

theorem logicalAndExprF_spec (tokens : List Tok) (allowed : List String)
    (exprF : Nat → Option (Bool × Nat)) (lo : Nat)
    (hF : ExprHyp tokens allowed exprF lo) :
    LevelSpec tokens allowed (logicalAndExprF tokens allowed exprF) lo :=
  nonTerminalChainedExpr_spec tokens allowed _ isLAndOp lo
    (inclusiveOrExprF_spec tokens allowed exprF lo hF) (fun _ => rfl)

theorem logicalOrExprF_spec (tokens : List Tok) (allowed : List String)
    (exprF : Nat → Option (Bool × Nat)) (lo : Nat)
    (hF : ExprHyp tokens allowed exprF lo) :
    LevelSpec tokens allowed (logicalOrExprF tokens allowed exprF) lo :=
  nonTerminalChainedExpr_spec tokens allowed _ isLOrOp lo
    (logicalAndExprF_spec tokens allowed exprF lo hF) (fun _ => rfl)

theorem conditionalExprF_spec (tokens : List Tok) (allowed : List String)
    (exprF : Nat → Option (Bool × Nat)) (lo : Nat)
    (hF : ExprHyp tokens allowed exprF lo) :
    LevelSpec tokens allowed (conditionalExprF tokens allowed exprF) lo := by
  intro pos hlo hpos
  obtain ⟨b0, p0, h0, h0a, h0b, h0c⟩ :=
    logicalOrExprF_spec tokens allowed exprF lo hF pos hlo hpos
  cases b0 with
  | false =>
    refine ⟨false, p0, ?_, h0a, h0b, fun hc => nomatch hc⟩
    simp [conditionalExprF, h0]
  | true =>
    obtain ⟨hp0, hspan0⟩ := h0c rfl
    by_cases hend : p0 = tokens.length
    · refine ⟨true, p0, ?_, h0a, h0b, fun _ => ⟨hp0, hspan0⟩⟩
      simp [conditionalExprF, h0, hend]
    · have hp0lt : p0 < tokens.length := by omega
      obtain ⟨t, ht⟩ := peek_lt tokens p0 hp0lt
      have htg : tokens.get? p0 = some t := ht
      by_cases hq : t = Tok.question
      · have hqspan : SpanOK tokens allowed p0 (p0 + 1) := by
          apply spanOK_single_not_ident
          intro n hc
          rw [htg] at hc
          have h3 := Option.some.inj hc
          rw [hq] at h3
          exact nomatch h3
        by_cases hend1 : p0 + 1 = tokens.length
        · refine ⟨false, p0 + 1, ?_, by omega, by omega, fun hc => nomatch hc⟩
          simp [conditionalExprF, h0, hend, ht, hq, hend1]
        · have hp1lt : p0 + 1 < tokens.length := by omega
          obtain ⟨t2, ht2⟩ := peek_lt tokens (p0 + 1) hp1lt
          have ht2g : tokens.get? (p0 + 1) = some t2 := ht2
          by_cases hcol : t2 = Tok.colon
          · have hcolspan : SpanOK tokens allowed (p0 + 1) (p0 + 2) := by
              apply spanOK_single_not_ident
              intro n hc
              rw [ht2g] at hc
              have h3 := Option.some.inj hc
              rw [hcol] at h3
              exact nomatch h3
            by_cases hend2 : p0 + 2 = tokens.length
            · refine ⟨false, p0 + 2, ?_, by omega, by omega, fun hc => nomatch hc⟩
              simp [conditionalExprF, h0, hend, ht, hq, hend1, ht2, hcol, hend2]
            · have hp2lt : p0 + 2 < tokens.length := by omega
              obtain ⟨e, q, he, hea, heb, hec⟩ := hF (p0 + 2) (by omega) hp2lt
              cases e with
              | false =>
                refine ⟨false, q, ?_, by omega, heb, fun hc => nomatch hc⟩
                simp [conditionalExprF, h0, hend, ht, hq, hend1, ht2, hcol, hend2, he]
              | true =>
                obtain ⟨hqgt, hspanE⟩ := hec rfl
                refine ⟨true, q, ?_, by omega, heb, ?_⟩
                · simp [conditionalExprF, h0, hend, ht, hq, hend1, ht2, hcol, hend2, he]
                · intro _
                  refine ⟨by omega, ?_⟩
                  exact spanOK_trans _ _ pos p0 q hspan0
                    (spanOK_trans _ _ p0 (p0 + 1) q hqspan
                      (spanOK_trans _ _ (p0 + 1) (p0 + 2) q hcolspan hspanE))
          · obtain ⟨e, q, he, hea, heb, hec⟩ := hF (p0 + 1) (by omega) hp1lt
            cases e with
            | false =>
              refine ⟨false, q, ?_, by omega, heb, fun hc => nomatch hc⟩
              simp [conditionalExprF, h0, hend, ht, hq, hend1, ht2, hcol, he]
            | true =>
              obtain ⟨hqgt, hspanE⟩ := hec rfl
              by_cases hendq : q = tokens.length
              · refine ⟨false, q, ?_, by omega, heb, fun hc => nomatch hc⟩
                simp [conditionalExprF, h0, hend, ht, hq, hend1, ht2, hcol, he, hendq]
              · have hqlt : q < tokens.length := by omega
                obtain ⟨t3, ht3⟩ := peek_lt tokens q hqlt
                have ht3g : tokens.get? q = some t3 := ht3
                by_cases ht3c : t3 = Tok.colon
                · have hcol2span : SpanOK tokens allowed q (q + 1) := by
                    apply spanOK_single_not_ident
                    intro n hc
                    rw [ht3g] at hc
                    have h3 := Option.some.inj hc
                    rw [ht3c] at h3
                    exact nomatch h3
                  by_cases hendq1 : q + 1 = tokens.length
                  · refine ⟨false, q + 1, ?_, by omega, by omega, fun hc => nomatch hc⟩
                    simp [conditionalExprF, h0, hend, ht, hq, hend1, ht2, hcol, he,
                      hendq, ht3, ht3c, hendq1]
                  · have hq1lt : q + 1 < tokens.length := by omega
                    obtain ⟨e2, r, he2, he2a, he2b, he2c⟩ := hF (q + 1) (by omega) hq1lt
                    cases e2 with
                    | false =>
                      refine ⟨false, r, ?_, by omega, he2b, fun hc => nomatch hc⟩
                      simp [conditionalExprF, h0, hend, ht, hq, hend1, ht2, hcol, he,
                        hendq, ht3, ht3c, hendq1, he2]
                    | true =>
                      obtain ⟨hrgt, hspanE2⟩ := he2c rfl
                      refine ⟨true, r, ?_, by omega, he2b, ?_⟩
                      · simp [conditionalExprF, h0, hend, ht, hq, hend1, ht2, hcol, he,
                          hendq, ht3, ht3c, hendq1, he2]
                      · intro _
                        refine ⟨by omega, ?_⟩
                        exact spanOK_trans _ _ pos p0 r hspan0
                          (spanOK_trans _ _ p0 (p0 + 1) r hqspan
                            (spanOK_trans _ _ (p0 + 1) q r hspanE
                              (spanOK_trans _ _ q (q + 1) r hcol2span hspanE2)))
                · refine ⟨false, q, ?_, by omega, heb, fun hc => nomatch hc⟩
                  simp [conditionalExprF, h0, hend, ht, hq, hend1, ht2, hcol, he,
                    hendq, ht3, ht3c]
      · refine ⟨true, p0, ?_, h0a, h0b, fun _ => ⟨hp0, hspan0⟩⟩
        simp [conditionalExprF, h0, hend, ht, hq]

theorem exprFuel_spec (tokens : List Tok) (allowed : List String) :
    ∀ fuel pos, pos < tokens.length → tokens.length - pos < fuel →
      PSpec tokens allowed (exprFuel tokens allowed fuel) pos := by
  intro fuel
  induction fuel with
  | zero =>
    intro pos _ hf
    omega
  | succ fuel ih =>
    intro pos hpos hf
    have hF : ExprHyp tokens allowed (exprFuel tokens allowed fuel) pos := by
      intro q hq hqlen
      exact ih q hqlen (by omega)
    exact conditionalExprF_spec tokens allowed (exprFuel tokens allowed fuel) pos hF
      pos (le_refl pos) hpos

theorem matchTokens_total (tokens : List Tok) (allowed : List String)
    (h : tokens ≠ []) : ∃ b, matchTokens tokens allowed = some b := by
  have hlen : 0 < tokens.length := List.length_pos.mpr h
  obtain ⟨b, p, he, _, _, _⟩ :=
    exprFuel_spec tokens allowed (tokens.length + 2) 0 hlen (by omega)
  exact ⟨b && decide (p = tokens.length), by simp [matchTokens, he]⟩

theorem matchTokens_idents (tokens : List Tok) (allowed : List String)
    (h : matchTokens tokens allowed = some true) :
    ∀ n, Tok.ident n ∈ tokens → allowed.contains n = true := by
  intro n hn
  by_cases hne : tokens = []
  · subst hne
    exact absurd hn (List.not_mem_nil _)
  · have hlen : 0 < tokens.length := List.length_pos.mpr hne
    obtain ⟨b, p, he, h1, h2, h3⟩ :=
      exprFuel_spec tokens allowed (tokens.length + 2) 0 hlen (by omega)
    have hmt : matchTokens tokens allowed = some (b && decide (p = tokens.length)) := by
      simp [matchTokens, he]
    rw [hmt] at h
    have hinj := Option.some.inj h
    have hand : b = true ∧ p = tokens.length := by
      constructor
      · cases b with
        | false => exact absurd hinj (by simp)
        | true => rfl
      · have := (Bool.and_eq_true _ _).mp hinj
        exact of_decide_eq_true this.2
    obtain ⟨hb, hp⟩ := hand
    obtain ⟨_, hspan⟩ := h3 hb
    obtain ⟨i, hi⟩ := List.mem_iff_get?.mp hn
    have hilen : i < tokens.length := by
      by_contra hc
      rw [List.get?_eq_none.mpr (by omega)] at hi
      exact nomatch hi
    exact hspan i n (by omega) (by omega) hi

/-- Claim C6: the claim (and the matcher's own comments) say any literal
containing `.`, or hex literal containing `.`/`P`/`p`, fails the match.
In fact `isIntegralConstant` is never called by the matcher: `unaryExpr`
accepts EVERY literal token, so the float literals `1.5` and `0x1p2` are
matched (while the unused `isIntegralConstant` would classify both as
non-integral). -/
theorem claim_C6 :
    matchTokens [Tok.literal "1.5"] [] = some true ∧
    isIntegralConstant "1.5" = false ∧
    matchTokens [Tok.literal "0x1p2"] [] = some true ∧
    isIntegralConstant "0x1p2" = false := by
  refine ⟨?_, ?_, ?_, ?_⟩ <;> decide

/-- Claim C7: an identifier token is accepted only when it is one of the
allowed identifiers — whenever `match` succeeds, every identifier token
in the list is allowed — and concretely `(x_)*(x_)` with parameters
`{x_}` matches while `sqrt((x_)*(x_) + (y_)*(y_))` with parameters
`{x_, y_}` fails. -/
theorem claim_C7 :
    (∀ (tokens : List Tok) (allowed : List String),
      matchTokens tokens allowed = some true →
      ∀ n, Tok.ident n ∈ tokens → allowed.contains n = true) ∧
    matchTokens parenMulTokens ["x_"] = some true ∧
    matchTokens sqrtTokens ["x_", "y_"] = some false := by
  refine ⟨matchTokens_idents, ?_, ?_⟩ <;> decide

theorem claim_C7_witness :
    (["x_"] : List String).contains "x_" = true :=
  claim_C7.1 [Tok.ident "x_"] ["x_"] (by decide) "x_" (by decide)

/-- Claim C8, counterexample: on the empty token list `match` does not
return `false` — the C++ immediately dereferences the end iterator
(`unaryOperator` reads `*Current` with `Current == End`), which the
model renders as no defined result at all. -/
theorem claim_C8_counterexample : ¬ (matchTokens [] [] = some false) := by decide

/-- Claim C8 as amended: for non-empty lists the claim holds — a lone
allowed identifier or a lone literal succeeds, and leftover tokens after
a structurally complete expression make `match` return `false` — but the
empty token list does not cleanly fail: the matcher reads the end
iterator (undefined behaviour, modelled as `none`); its only caller
guards with `MacroTokens.empty()` first. -/
theorem claim_C8_amended :
    (∀ allowed : List String, matchTokens [] allowed = none) ∧
    (∀ (n : String) (allowed : List String), allowed.contains n = true →
      matchTokens [Tok.ident n] allowed = some true) ∧
    (∀ (s : String) (allowed : List String),
      matchTokens [Tok.literal s] allowed = some true) ∧
    (∀ (tokens : List Tok) (allowed : List String) (p : Nat),
      exprFuel tokens allowed (tokens.length + 2) 0 = some (true, p) →
      p ≠ tokens.length → matchTokens tokens allowed = some false) := by
  refine ⟨fun allowed => rfl, ?_, ?_, ?_⟩
  · intro n allowed h
    have hm : n ∈ allowed := by simpa using h
    simp [matchTokens, exprFuel, conditionalExprF, logicalOrExprF, logicalAndExprF,
      inclusiveOrExprF, exclusiveOrExprF, andExprF, equalityExprF, relationalExprF,
      compareExprF, shiftExprF, additiveExprF, multiplicativeExprF,
      nonTerminalChainedExpr, chainLoop, unaryExprF, unaryOperator, consume, peek,
      Tok.isUnaryOp, Tok.isLiteral, Tok.isAnyIdentifier, getTokenName, isLOrOp,
      isLAndOp, isOrOp, isXorOp, isAndOp, isEqOp, isRelOp, isShiftOp, isAddOp,
      isMulOp, hm]
  · intro s allowed
    simp [matchTokens, exprFuel, conditionalExprF, logicalOrExprF, logicalAndExprF,
      inclusiveOrExprF, exclusiveOrExprF, andExprF, equalityExprF, relationalExprF,
      compareExprF, shiftExprF, additiveExprF, multiplicativeExprF,
      nonTerminalChainedExpr, chainLoop, unaryExprF, unaryOperator, consume, peek,
      Tok.isUnaryOp, Tok.isLiteral, Tok.isAnyIdentifier, getTokenName, isLOrOp,
      isLAndOp, isOrOp, isXorOp, isAndOp, isEqOp, isRelOp, isShiftOp, isAddOp,
      isMulOp]
  · intro tokens allowed p he hp
    simp [matchTokens, he, hp]

theorem claim_C8_amended_witness :
    matchTokens [Tok.ident "w_"] ["w_"] = some true ∧
    matchTokens [Tok.literal "1", Tok.literal "2"] [] = some false :=
  ⟨claim_C8_amended.2.1 "w_" ["w_"] (by decide),
   claim_C8_amended.2.2.2 [Tok.literal "1", Tok.literal "2"] [] 1
     (by decide) (by decide)⟩

/-- Claim C10: on every non-empty token list the matcher terminates with
a definite boolean (the chosen fuel suffices, the cursor never leaves
`[begin, end]` and no read of the end iterator happens), while the empty
list is exactly the input whose first dereference hits the end
iterator. -/
theorem claim_C10 :
    (∀ (tokens : List Tok) (allowed : List String), tokens ≠ [] →
      ∃ b, matchTokens tokens allowed = some b) ∧
    (∀ allowed : List String, matchTokens [] allowed = none) :=
  ⟨matchTokens_total, fun _ => rfl⟩

theorem claim_C10_witness :
    ∃ b, matchTokens [Tok.literal "1"] [] = some b :=
  claim_C10.1 [Tok.literal "1"] [] (by decide)

end MacroToFunction
